import Mathlib

/-!
Verification of the lithium unikernel's architecture/memory core against its
specification.  The Rust sources under `src/kernel/` are shallowly embedded:

* `src/kernel/memory.rs`   — `PhysRegion`, `PhysicalMemoryBitmap`, `PhysicalAllocator`
* `src/kernel/cpu.rs`      — `Cpu::push_interrupt_off` / `Cpu::pop_interrupt_off`
* `src/kernel/trap.rs`     — `kerneltrap`, `end_of_interrupt`
* `src/kernel/arch.rs`     — `GlobalDescriptorTable`, `SegmentSelector`, descriptors
* `src/kernel/spinlock.rs` — `Spinlock::acquire` / `Spinlock::holding`

Machine integers (`u64`/`usize`) are modelled as `Nat`.  Where the Rust code
could overflow or underflow (which panics in checked builds) the model notes
the divergence in a comment next to the definition.  A Rust function that can
panic is modelled as returning `Option`, with `none` for the panic.
-/

/-! ### Generic list/bit helpers

The Rust bitmap is a `&mut [u8]`; bit `i` of the bitmap lives at byte `i >> 3`,
bit position `i & 7`.  Every bitmap operation in `memory.rs` touches exactly one
bit of one byte (`|= 1 << bit`, `&= !(1 << bit)`, `& (1 << bit)`), so the byte
array is embedded as a `List Bool` with one entry per bit: entry `i` of the list
is bit `i & 7` of byte `i >> 3`.  An out-of-range `List.getD` returns `false`
where Rust would panic on the out-of-bounds byte index; every such read in the
embedded code sits under an assertion that then fails, so both models panic. -/

/-- Bit `i` of the bitmap (Rust: `(bitmap[i >> 3] & (1 << (i & 7))) != 0`). -/
def testBit (l : List Bool) (i : Nat) : Bool :=
  l.getD i false

/-- Set bits `start, start+1, …, start+k-1` (Rust: `bitmap[j >> 3] |= 1 << (j & 7)`
for `j in start..start + k`). -/
def setBlocks (l : List Bool) (start : Nat) : Nat → List Bool
  | 0 => l
  | k + 1 => setBlocks (l.set start true) (start + 1) k

/-- Clear bits `start, …, start+k-1`, asserting each was previously set
(Rust: the loop in `try_deallocate` with
`assert!((self.bitmap[entry] & (1 << bit)) != 0)` then `&= !(1 << bit)`).
`none` models the assertion failure (or the out-of-bounds byte access, which
also panics). -/
def clearBlocks (l : List Bool) (start : Nat) : Nat → Option (List Bool)
  | 0 => some l
  | k + 1 =>
    if testBit l start then clearBlocks (l.set start false) (start + 1) k
    else none

/-- Number of `false` bits among indices `i, i+1, …, i+fuel-1`. -/
def countFreeAux (l : List Bool) : Nat → Nat → Nat
  | _, 0 => 0
  | i, fuel + 1 => (if testBit l i then 0 else 1) + countFreeAux l (i + 1) fuel

/-- Number of zero bits of the bitmap with index `≥ r` ("outside the reserved
prefix" when `r` is the reserved block count). -/
def countFree (l : List Bool) (r : Nat) : Nat :=
  countFreeAux l r (l.length - r)

theorem getD_set_self (l : List Bool) (i : Nat) (v : Bool) (h : i < l.length) :
    (l.set i v).getD i false = v := by
  induction l generalizing i with
  | nil => simp at h
  | cons a t ih =>
    cases i with
    | zero => rfl
    | succ j => simpa using ih j (by simpa using h)

theorem getD_set_ne (l : List Bool) (i j : Nat) (v : Bool) (h : i ≠ j) :
    (l.set i v).getD j false = l.getD j false := by
  induction l generalizing i j with
  | nil => rfl
  | cons a t ih =>
    cases i with
    | zero =>
      cases j with
      | zero => exact absurd rfl h
      | succ j2 => rfl
    | succ i2 =>
      cases j with
      | zero => rfl
      | succ j2 => simpa using ih i2 j2 (by omega)

theorem testBit_set_self (l : List Bool) (i : Nat) (v : Bool) (h : i < l.length) :
    testBit (l.set i v) i = v :=
  getD_set_self l i v h

theorem testBit_set_ne (l : List Bool) (i j : Nat) (v : Bool) (h : i ≠ j) :
    testBit (l.set i v) j = testBit l j :=
  getD_set_ne l i j v h

theorem length_setBlocks (start k : Nat) (l : List Bool) :
    (setBlocks l start k).length = l.length := by
  induction k generalizing l start with
  | zero => rfl
  | succ k2 ih => simp [setBlocks, ih]

theorem testBit_setBlocks_out (start k : Nat) (l : List Bool) (j : Nat)
    (h : j < start ∨ start + k ≤ j) :
    testBit (setBlocks l start k) j = testBit l j := by
  induction k generalizing l start with
  | zero => rfl
  | succ k2 ih =>
    have hj : j ≠ start := by omega
    rw [setBlocks, ih (start + 1) (l.set start true) (by omega),
      testBit_set_ne l start j true (by omega)]

theorem testBit_setBlocks_in (start k : Nat) (l : List Bool) (j : Nat)
    (h1 : start ≤ j) (h2 : j < start + k) (h3 : j < l.length) :
    testBit (setBlocks l start k) j = true := by
  induction k generalizing l start with
  | zero => omega
  | succ k2 ih =>
    rw [setBlocks]
    by_cases hj : j = start
    · subst hj
      rw [testBit_setBlocks_out (j + 1) k2 _ j (by omega)]
      exact testBit_set_self l j true h3
    · exact ih (start + 1) (l.set start true) (by omega) (by omega)
        (by simpa using h3)

theorem testBit_setBlocks_mono (start k : Nat) (l : List Bool) (j : Nat)
    (hj : j < l.length) (h : testBit l j = true) :
    testBit (setBlocks l start k) j = true := by
  by_cases hin : start ≤ j ∧ j < start + k
  · exact testBit_setBlocks_in start k l j hin.1 hin.2 hj
  · rw [testBit_setBlocks_out start k l j (by omega)]; exact h

theorem countFreeAux_ext (l l2 : List Bool) : ∀ (i fuel : Nat),
    (∀ j, i ≤ j → j < i + fuel → testBit l j = testBit l2 j) →
    countFreeAux l i fuel = countFreeAux l2 i fuel := by
  intro i fuel
  induction fuel generalizing i with
  | zero => intro _; rfl
  | succ f ih =>
    intro h
    rw [countFreeAux, countFreeAux, h i (le_refl i) (by omega),
      ih (i + 1) (fun j h1 h2 => h j (by omega) (by omega))]

theorem countFreeAux_split (l : List Bool) : ∀ (a : Nat) (i b : Nat),
    countFreeAux l i (a + b) = countFreeAux l i a + countFreeAux l (i + a) b := by
  intro a
  induction a with
  | zero => intro i b; simp [countFreeAux]
  | succ a2 ih =>
    intro i b
    have : a2 + 1 + b = (a2 + b) + 1 := by omega
    rw [this, countFreeAux, countFreeAux, ih (i + 1) b]
    have : i + 1 + a2 = i + (a2 + 1) := by omega
    rw [this]; omega

theorem countFreeAux_all_false (l : List Bool) : ∀ (fuel i : Nat),
    (∀ j, i ≤ j → j < i + fuel → testBit l j = false) →
    countFreeAux l i fuel = fuel := by
  intro fuel
  induction fuel with
  | zero => intro _ _; rfl
  | succ f ih =>
    intro i h
    rw [countFreeAux, h i (le_refl i) (by omega),
      ih (i + 1) (fun j h1 h2 => h j (by omega) (by omega))]
    simp [Nat.add_comm]

theorem countFree_all_false (l : List Bool) (r : Nat)
    (h : ∀ j, r ≤ j → j < l.length → testBit l j = false) :
    countFree l r = l.length - r := by
  unfold countFree
  exact countFreeAux_all_false l (l.length - r) r
    (fun j h1 h2 => h j h1 (by omega))

/-- Setting one bit that lies in `[r, length)` changes the free count by the
difference of the old and new bit values. -/
theorem countFree_set (l : List Bool) (r m : Nat) (v : Bool)
    (hm : m < l.length) (hr : r ≤ m) :
    countFree (l.set m v) r + (if testBit l m then 0 else 1) =
      countFree l r + (if v then 0 else 1) := by
  unfold countFree
  have hlen : (l.set m v).length = l.length := by simp
  rw [hlen]
  have hsplit : l.length - r = (m - r) + (1 + (l.length - (m + 1))) := by omega
  rw [hsplit, countFreeAux_split (l.set m v), countFreeAux_split (l.set m v),
    countFreeAux_split l, countFreeAux_split l]
  have e1 : countFreeAux (l.set m v) r (m - r) = countFreeAux l r (m - r) :=
    countFreeAux_ext _ _ r (m - r)
      (fun j h1 h2 => testBit_set_ne l m j v (by omega))
  have hrm : r + (m - r) = m := by omega
  have e2 : countFreeAux (l.set m v) (m + 1) (l.length - (m + 1)) =
      countFreeAux l (m + 1) (l.length - (m + 1)) :=
    countFreeAux_ext _ _ (m + 1) _
      (fun j h1 h2 => testBit_set_ne l m j v (by omega))
  have b1 : countFreeAux (l.set m v) m 1 = (if v then 0 else 1) := by
    simp [countFreeAux, testBit_set_self l m v hm]
  have b2 : countFreeAux l m 1 = (if testBit l m then 0 else 1) := by
    simp [countFreeAux]
  rw [e1, hrm, e2, b1, b2]
  cases v <;> cases hb : testBit l m <;> simp [hb] <;> omega

theorem countFree_setBlocks : ∀ (k : Nat) (l : List Bool) (start r : Nat),
    r ≤ start →
    (∀ j, start ≤ j → j < start + k → j < l.length ∧ testBit l j = false) →
    countFree (setBlocks l start k) r + k = countFree l r := by
  intro k
  induction k with
  | zero => intro l start r _ _; rfl
  | succ k2 ih =>
    intro l start r hr h
    have hs := h start (le_refl start) (by omega)
    have hset : countFree (l.set start true) r + 1 = countFree l r := by
      have := countFree_set l r start true hs.1 hr
      rw [hs.2] at this
      simpa using this
    have hrec := ih (l.set start true) (start + 1) r (by omega)
      (fun j h1 h2 => by
        refine ⟨by simpa using (h j (by omega) (by omega)).1, ?_⟩
        rw [testBit_set_ne l start j true (by omega)]
        exact (h j (by omega) (by omega)).2)
    rw [setBlocks]
    omega

/-- Full characterisation of a successful `clearBlocks` run: every targeted bit
was in bounds and previously set, the targeted bits end up clear, all other
bits are untouched, and the free count grows by exactly `k`. -/
theorem clearBlocks_spec : ∀ (k : Nat) (l l2 : List Bool) (start : Nat),
    clearBlocks l start k = some l2 →
    l2.length = l.length ∧
    (∀ j, j < start ∨ start + k ≤ j → testBit l2 j = testBit l j) ∧
    (∀ j, start ≤ j → j < start + k →
      j < l.length ∧ testBit l j = true ∧ testBit l2 j = false) ∧
    (∀ r, r ≤ start → countFree l2 r = countFree l r + k) := by
  intro k
  induction k with
  | zero =>
    intro l l2 start h
    obtain rfl : l = l2 := by simpa [clearBlocks] using h
    exact ⟨rfl, fun _ _ => rfl, fun j h1 h2 => by omega, fun r _ => by simp⟩
  | succ k2 ih =>
    intro l l2 start h
    rw [clearBlocks] at h
    by_cases hb : testBit l start
    · rw [if_pos hb] at h
      have hlt : start < l.length := by
        by_contra hge
        have : testBit l start = false := by
          unfold testBit; exact List.getD_eq_default _ _ (by omega)
        rw [this] at hb; exact Bool.noConfusion hb
      obtain ⟨ih1, ih2, ih3, ih4⟩ := ih (l.set start false) l2 (start + 1) h
      refine ⟨by simpa using ih1, ?_, ?_, ?_⟩
      · intro j hj
        rw [ih2 j (by omega), testBit_set_ne l start j false (by omega)]
      · intro j h1 h2
        by_cases hj : j = start
        · subst hj
          refine ⟨hlt, hb, ?_⟩
          rw [ih2 j (by omega)]
          exact testBit_set_self l j false hlt
        · have := ih3 j (by omega) (by omega)
          refine ⟨by simpa using this.1, ?_, this.2.2⟩
          rw [← testBit_set_ne l start j false (by omega)]
          exact this.2.1
      · intro r hrs
        have h4 := ih4 r (by omega)
        have hset : countFree (l.set start false) r = countFree l r + 1 := by
          have := countFree_set l r start false hlt hrs
          rw [hb] at this
          simpa using this
        omega
    · rw [if_neg hb] at h
      exact Option.noConfusion h

/-- A run of `k` consecutive free bits inside `[r, length)` forces the free
count from `r` to be at least `k`. -/
theorem countFree_ge_of_run (l : List Bool) (r sb k : Nat)
    (h1 : r ≤ sb) (h2 : sb + k ≤ l.length)
    (h3 : ∀ j, sb ≤ j → j < sb + k → testBit l j = false) :
    k ≤ countFree l r := by
  unfold countFree
  have hsplit : l.length - r = (sb - r) + (k + (l.length - (sb + k))) := by omega
  rw [hsplit, countFreeAux_split, countFreeAux_split]
  have hrk : r + (sb - r) = sb := by omega
  rw [hrk, countFreeAux_all_false l k sb (fun j ha hb => h3 j ha (by omega))]
  omega

theorem getD_replicate_false (n j : Nat) :
    (List.replicate n false).getD j false = false := by
  induction n generalizing j with
  | zero => rfl
  | succ m ih =>
    cases j with
    | zero => rfl
    | succ j2 => exact ih j2


/-! ### Arithmetic helpers mirroring the Rust alignment primitives

`PhysAddr::align_up` / `align_down` (x86_64 crate) and `usize::next_multiple_of`
are bit-twiddling operations on power-of-two alignments; on `Nat` they are the
division round-down/round-up below, which agree with the source for every
power-of-two (hence positive) alignment. -/

/-- `PhysAddr::align_down(addr, align)` for a power-of-two `align`. -/
def alignDown (addr align : Nat) : Nat :=
  addr / align * align

/-- `PhysAddr::align_up(addr, align)` for a power-of-two `align`. -/
def alignUp (addr align : Nat) : Nat :=
  (addr + align - 1) / align * align

/-- `n.next_multiple_of(k)` (Rust); all call sites have `k > 0`. -/
def nextMultipleOf (n k : Nat) : Nat :=
  (n + k - 1) / k * k

theorem nextMultipleOf_mul (k bs : Nat) (hbs : 0 < bs) :
    nextMultipleOf (k * bs) bs = k * bs := by
  unfold nextMultipleOf
  have h1 : k * bs + bs - 1 = (bs - 1) + k * bs := by omega
  rw [h1, Nat.add_mul_div_right _ _ hbs, Nat.div_eq_of_lt (by omega)]
  ring

theorem le_nextMultipleOf (n k : Nat) (hk : 0 < k) :
    n ≤ nextMultipleOf n k := by
  unfold nextMultipleOf
  have h1 := Nat.div_add_mod' (n + k - 1) k
  have h2 := Nat.mod_lt (n + k - 1) hk
  omega

theorem nextMultipleOf_div_mul (n k : Nat) (hk : 0 < k) :
    nextMultipleOf n k / k * k = nextMultipleOf n k := by
  unfold nextMultipleOf
  rw [Nat.mul_div_cancel _ hk]

theorem alignUp_mod (addr align : Nat) :
    alignUp addr align % align = 0 := by
  unfold alignUp
  exact Nat.mul_mod_left _ _

/-! ### `PhysRegion` (src/kernel/memory.rs, lines 40-71) -/

/-- A physical memory region: start address and size in bytes. -/
structure PhysRegion where
  start_address : Nat
  size : Nat
deriving Repr, DecidableEq

/-- `PhysRegion::end_address`. -/
def PhysRegion.end_address (r : PhysRegion) : Nat :=
  r.start_address + r.size

/-- `PhysRegion::intersects`:
`!(self_end <= other.start || self.start >= other_end)`. -/
def PhysRegion.intersects (self other : PhysRegion) : Bool :=
  !(decide (self.start_address + self.size ≤ other.start_address) ||
    decide (self.start_address ≥ other.start_address + other.size))

theorem intersects_comm (a b : PhysRegion) :
    a.intersects b = b.intersects a := by
  unfold PhysRegion.intersects
  simp only [ge_iff_le]
  rw [Bool.or_comm]

theorem intersects_self (a : PhysRegion) (h : 0 < a.size) :
    a.intersects a = true := by
  simp [PhysRegion.intersects]
  omega

/-! ### `PhysicalMemoryBitmap` (src/kernel/memory.rs, lines 194-350) -/

/-- One physical extent managed by a self-hosted bitmap.  The Rust `bitmap`
field is a `&'static mut [u8]` slice of `size / block_size / 8` bytes carved
out of the managed region itself; it is embedded as one `Bool` per bit (see
the note on `testBit`). -/
structure PhysicalMemoryBitmap where
  start_addr : Nat
  size : Nat
  block_size : Nat
  blocks_remaining : Nat
  reserved : Nat
  bitmap : List Bool
deriving Repr, DecidableEq

/-- `PhysicalMemoryBitmap::new(start_addr, size, block_size)`.  The source
`debug_assert!(block_size.is_power_of_two())`; theorems that need it take
positivity/power-of-two hypotheses.  `end_aligned - start_aligned` is a `u64`
subtraction (panics in checked builds if the extent is smaller than one
aligned block); the `Nat` model truncates that degenerate case to an empty
extent, which no verified property depends on. -/
def PhysicalMemoryBitmap.new (start_addr size block_size : Nat) :
    PhysicalMemoryBitmap :=
  let start_aligned := alignUp start_addr block_size
  let end_aligned := alignDown (start_addr + size) block_size
  let aligned_size := end_aligned - start_aligned
  let bitmap_size := aligned_size / block_size / 8
  -- `bitmap.fill(0)` then mark the first `bitmap_reserved_blocks` bits set.
  let reserved := nextMultipleOf bitmap_size block_size / block_size
  let bitmap := setBlocks (List.replicate (bitmap_size * 8) false) 0 reserved
  { start_addr := start_aligned
    size := aligned_size
    block_size := block_size
    blocks_remaining := aligned_size / block_size - reserved
    reserved := reserved
    bitmap := bitmap }

/-- `PhysicalMemoryBitmap::bytes_remaining`. -/
def PhysicalMemoryBitmap.bytes_remaining (st : PhysicalMemoryBitmap) : Nat :=
  st.blocks_remaining * st.block_size

/-- `PhysicalMemoryBitmap::bytes_to_blocks`. -/
def PhysicalMemoryBitmap.bytes_to_blocks (st : PhysicalMemoryBitmap)
    (size : Nat) : Nat :=
  nextMultipleOf size st.block_size / st.block_size

/-- `PhysicalMemoryBitmap::bitmap_end` — `bitmap.len() * 8` bits in the
source; the bit-list length here. -/
def PhysicalMemoryBitmap.bitmap_end (st : PhysicalMemoryBitmap) : Nat :=
  st.bitmap.length

/-- `PhysicalMemoryBitmap::bitmap_start`. -/
def PhysicalMemoryBitmap.bitmap_start (st : PhysicalMemoryBitmap) : Nat :=
  st.reserved

/-- `PhysicalMemoryBitmap::total_blocks`. -/
def PhysicalMemoryBitmap.total_blocks (st : PhysicalMemoryBitmap) : Nat :=
  st.size / st.block_size

/-- `PhysicalMemoryBitmap::contains_frame`.  `frame.start_address -
self.start_addr` is a `u64` subtraction (see `try_deallocate`). -/
def PhysicalMemoryBitmap.contains_frame (st : PhysicalMemoryBitmap)
    (frame : PhysRegion) : Bool :=
  let start_block := (frame.start_address - st.start_addr) / st.block_size
  let blocks := nextMultipleOf frame.size st.block_size / st.block_size
  let end_block := start_block + blocks
  decide (start_block < st.total_blocks) && decide (end_block ≤ st.total_blocks)

/-- The first-fit scan loop of `PhysicalMemoryBitmap::allocate`
(`for i in self.bitmap_start()..self.bitmap_end()`), returning the start
block of the first run of `blocks` consecutive zero bits.  `fuel` counts the
remaining loop iterations; the caller passes `bitmap_end - i`.  Marking the
found run is done by the caller (`allocate`) via `setBlocks`. -/
def allocScan (bm : List Bool) (blocks : Nat) :
    Nat → Nat → Nat → Nat → Option Nat
  | _, 0, _, _ => none
  | i, fuel + 1, consecutive, startBlock =>
    if testBit bm i = false then
      -- `if consecutive_blocks == 0 { start_block = i }` then
      -- `consecutive_blocks += 1; if consecutive_blocks == blocks { ... }`
      if consecutive + 1 = blocks then
        some (if consecutive = 0 then i else startBlock)
      else
        allocScan bm blocks (i + 1) fuel (consecutive + 1)
          (if consecutive = 0 then i else startBlock)
    else
      -- `consecutive_blocks = 0`
      allocScan bm blocks (i + 1) fuel 0 startBlock

/-- `PhysicalMemoryBitmap::allocate(blocks)`.  On success the found run is
marked allocated and `blocks_remaining` is decremented (a `usize` subtraction;
`allocate_some_spec` plus the counting invariant show it never underflows in
any state reachable through the allocator). -/
def PhysicalMemoryBitmap.allocate (st : PhysicalMemoryBitmap) (blocks : Nat) :
    Option (PhysicalMemoryBitmap × PhysRegion) :=
  match allocScan st.bitmap blocks st.bitmap_start
      (st.bitmap_end - st.bitmap_start) 0 0 with
  | none => none
  | some start_block =>
    some ({ st with
              bitmap := setBlocks st.bitmap start_block blocks
              blocks_remaining := st.blocks_remaining - blocks },
          { start_address := st.start_addr + start_block * st.block_size
            size := blocks * st.block_size })

/-- `PhysicalMemoryBitmap::try_deallocate(frame)`.  `none` models the
`assert!` panic on a bit that was not set (double free) or the equivalent
out-of-bounds bitmap access.  `frame.start_address - self.start_addr` is a
`u64` subtraction that would panic (checked builds) if the frame started
below the extent; the `Nat` model truncates to `0`, and no verified property
depends on that case. -/
def PhysicalMemoryBitmap.try_deallocate (st : PhysicalMemoryBitmap)
    (frame : PhysRegion) : Option (PhysicalMemoryBitmap × Bool) :=
  let blocks := nextMultipleOf frame.size st.block_size / st.block_size
  let relative_addr := frame.start_address - st.start_addr
  let start_block := relative_addr / st.block_size
  if start_block < st.reserved then some (st, false)
  else if st.contains_frame frame = false then some (st, false)
  else
    match clearBlocks st.bitmap start_block blocks with
    | none => none
    | some bm =>
      some ({ st with
                bitmap := bm
                blocks_remaining := st.blocks_remaining + blocks }, true)

theorem allocScan_blocks_zero (bm : List Bool) : ∀ (fuel i c s : Nat),
    allocScan bm 0 i fuel c s = none := by
  intro fuel
  induction fuel with
  | zero => intro _ _ _; rfl
  | succ f ih =>
    intro i c s
    rw [allocScan]
    by_cases hb : testBit bm i = false
    · rw [if_pos hb, if_neg (by omega : ¬ c + 1 = 0)]
      exact ih (i + 1) (c + 1) _
    · rw [if_neg hb]
      exact ih (i + 1) 0 s

/-- Soundness of the first-fit scan: a returned start block designates a run
of `blocks` free bits lying entirely inside `[resvLB, bm.length)`, where
`resvLB` is a lower bound on every index the scan visits. -/
theorem allocScan_sound (bm : List Bool) (blocks resvLB : Nat) :
    ∀ (fuel i consecutive startBlock sb : Nat),
    i + fuel ≤ bm.length →
    resvLB ≤ i →
    consecutive < blocks →
    (consecutive ≠ 0 →
      startBlock + consecutive = i ∧ resvLB ≤ startBlock ∧
      ∀ j, startBlock ≤ j → j < i → testBit bm j = false) →
    allocScan bm blocks i fuel consecutive startBlock = some sb →
    resvLB ≤ sb ∧ sb + blocks ≤ bm.length ∧
      ∀ j, sb ≤ j → j < sb + blocks → testBit bm j = false := by
  intro fuel
  induction fuel with
  | zero =>
    intro i c s sb _ _ _ _ h
    exact absurd h (by rw [allocScan]; exact Option.noConfusion)
  | succ f ih =>
    intro i c s sb hlen hresv hcb hrun h
    rw [allocScan] at h
    by_cases hb : testBit bm i = false
    · rw [if_pos hb] at h
      by_cases hc : c + 1 = blocks
      · rw [if_pos hc] at h
        have hsb : sb = if c = 0 then i else s := (Option.some_inj.mp h).symm
        by_cases hc0 : c = 0
        · subst hc0
          rw [if_pos rfl] at hsb
          rw [hsb]
          refine ⟨hresv, by omega, fun j h1 h2 => ?_⟩
          have : j = i := by omega
          subst this; exact hb
        · rw [if_neg hc0] at hsb
          rw [hsb]
          obtain ⟨he, hs, hbits⟩ := hrun hc0
          refine ⟨hs, by omega, fun j h1 h2 => ?_⟩
          by_cases hj : j < i
          · exact hbits j h1 hj
          · have : j = i := by omega
            subst this; exact hb
      · rw [if_neg hc] at h
        refine ih (i + 1) (c + 1) _ sb (by omega) (by omega) (by omega)
          (fun _ => ?_) h
        by_cases hc0 : c = 0
        · subst hc0
          rw [if_pos rfl]
          refine ⟨by omega, hresv, fun j h1 h2 => ?_⟩
          have : j = i := by omega
          subst this; exact hb
        · rw [if_neg hc0]
          obtain ⟨he, hs, hbits⟩ := hrun hc0
          refine ⟨by omega, hs, fun j h1 h2 => ?_⟩
          by_cases hj : j < i
          · exact hbits j h1 hj
          · have : j = i := by omega
            subst this; exact hb
    · rw [if_neg hb] at h
      exact ih (i + 1) 0 s sb (by omega) (by omega) (by omega)
        (fun hc0 => absurd rfl hc0) h

/-- Everything a successful `PhysicalMemoryBitmap::allocate` implies: the
returned region covers a previously-free run of `blocks` blocks starting at
block `sb`, which lies beyond the reserved prefix and inside the bitmap. -/
theorem allocate_some_spec (st : PhysicalMemoryBitmap) (blocks : Nat)
    (st2 : PhysicalMemoryBitmap) (r : PhysRegion)
    (h : st.allocate blocks = some (st2, r)) :
    ∃ sb, 0 < blocks ∧ st.reserved ≤ sb ∧ sb + blocks ≤ st.bitmap.length ∧
      (∀ j, sb ≤ j → j < sb + blocks → testBit st.bitmap j = false) ∧
      st2 = { st with bitmap := setBlocks st.bitmap sb blocks
                      blocks_remaining := st.blocks_remaining - blocks } ∧
      r = { start_address := st.start_addr + sb * st.block_size
            size := blocks * st.block_size } := by
  unfold PhysicalMemoryBitmap.allocate at h
  cases hscan : allocScan st.bitmap blocks st.bitmap_start
      (st.bitmap_end - st.bitmap_start) 0 0 with
  | none => rw [hscan] at h; exact Option.noConfusion h
  | some sb =>
    rw [hscan] at h
    have hpair := Option.some_inj.mp h
    have hst2 : st2 = { st with bitmap := setBlocks st.bitmap sb blocks
                                blocks_remaining := st.blocks_remaining - blocks } :=
      (congrArg Prod.fst hpair).symm
    have hr : r = { start_address := st.start_addr + sb * st.block_size
                    size := blocks * st.block_size } :=
      (congrArg Prod.snd hpair).symm
    have hblocks : 0 < blocks := by
      rcases Nat.eq_zero_or_pos blocks with h0 | h0
      · subst h0
        rw [allocScan_blocks_zero] at hscan
        exact absurd hscan Option.noConfusion
      · exact h0
    by_cases hle : st.reserved ≤ st.bitmap.length
    · have hsound := allocScan_sound st.bitmap blocks st.reserved
        (st.bitmap_end - st.bitmap_start) st.reserved 0 0 sb
        (by unfold PhysicalMemoryBitmap.bitmap_end
               PhysicalMemoryBitmap.bitmap_start; omega)
        (le_refl _) hblocks (fun hc0 => absurd rfl hc0) hscan
      exact ⟨sb, hblocks, hsound.1, hsound.2.1, hsound.2.2, hst2, hr⟩
    · exfalso
      have hfz : st.bitmap_end - st.bitmap_start = 0 := by
        unfold PhysicalMemoryBitmap.bitmap_end PhysicalMemoryBitmap.bitmap_start
        omega
      rw [hfz, allocScan] at hscan
      exact Option.noConfusion hscan

/-- A `try_deallocate` that returns `false` leaves the bitmap unchanged. -/
theorem try_deallocate_false_spec (st : PhysicalMemoryBitmap)
    (frame : PhysRegion) (st2 : PhysicalMemoryBitmap)
    (h : st.try_deallocate frame = some (st2, false)) : st2 = st := by
  unfold PhysicalMemoryBitmap.try_deallocate at h
  by_cases h1 : (frame.start_address - st.start_addr) / st.block_size <
      st.reserved
  · rw [if_pos h1] at h
    exact (congrArg Prod.fst (Option.some_inj.mp h)).symm
  · rw [if_neg h1] at h
    by_cases h2 : st.contains_frame frame = false
    · rw [if_pos h2] at h
      exact (congrArg Prod.fst (Option.some_inj.mp h)).symm
    · rw [if_neg h2] at h
      cases hclear : clearBlocks st.bitmap
          ((frame.start_address - st.start_addr) / st.block_size)
          (nextMultipleOf frame.size st.block_size / st.block_size) with
      | none => rw [hclear] at h; exact Option.noConfusion h
      | some bm2 =>
        rw [hclear] at h
        exact absurd (congrArg Prod.snd (Option.some_inj.mp h))
          (by simp)

/-- Everything a successful (`true`) `try_deallocate` implies. -/
theorem try_deallocate_true_spec (st : PhysicalMemoryBitmap)
    (frame : PhysRegion) (st2 : PhysicalMemoryBitmap)
    (h : st.try_deallocate frame = some (st2, true)) :
    ∃ bm2,
      st.reserved ≤ (frame.start_address - st.start_addr) / st.block_size ∧
      st.contains_frame frame = true ∧
      clearBlocks st.bitmap
        ((frame.start_address - st.start_addr) / st.block_size)
        (nextMultipleOf frame.size st.block_size / st.block_size) = some bm2 ∧
      st2 = { st with
                bitmap := bm2
                blocks_remaining := st.blocks_remaining +
                  nextMultipleOf frame.size st.block_size / st.block_size } := by
  unfold PhysicalMemoryBitmap.try_deallocate at h
  by_cases h1 : (frame.start_address - st.start_addr) / st.block_size <
      st.reserved
  · rw [if_pos h1] at h
    exact absurd (congrArg Prod.snd (Option.some_inj.mp h)) (by simp)
  · rw [if_neg h1] at h
    by_cases h2 : st.contains_frame frame = false
    · rw [if_pos h2] at h
      exact absurd (congrArg Prod.snd (Option.some_inj.mp h)) (by simp)
    · rw [if_neg h2] at h
      cases hclear : clearBlocks st.bitmap
          ((frame.start_address - st.start_addr) / st.block_size)
          (nextMultipleOf frame.size st.block_size / st.block_size) with
      | none => rw [hclear] at h; exact Option.noConfusion h
      | some bm2 =>
        rw [hclear] at h
        exact ⟨bm2, by omega, by simpa using h2, rfl,
          (congrArg Prod.fst (Option.some_inj.mp h)).symm⟩

theorem nextMultipleOf_div (m k : Nat) (hk : 0 < k) :
    nextMultipleOf m k / k = (m + k - 1) / k := by
  unfold nextMultipleOf
  rw [Nat.mul_div_cancel _ hk]

theorem ceil_div_le_eight_mul (m bs : Nat) (hbs : 0 < bs) :
    (m + bs - 1) / bs ≤ m * 8 := by
  rcases Nat.eq_zero_or_pos m with rfl | hm
  · have h0 : (0 + bs - 1) / bs = 0 := Nat.div_eq_of_lt (by omega)
    omega
  · have h1 : (m + bs - 1) / bs ≤ m := by
      rw [Nat.div_le_iff_le_mul_add_pred hbs]
      have h2 : m ≤ bs * m := Nat.le_mul_of_pos_left m hbs
      omega
    omega

/-- What `PhysicalMemoryBitmap::new` establishes: block-aligned start, a
reserved prefix of set bits that fits in the bitmap, a bitmap that covers at
most `total_blocks` blocks, and a free counter equal to the free bits beyond
the reserved prefix plus the trailing blocks the bitmap cannot represent. -/
theorem new_spec (start size bs : Nat) (hbs : 0 < bs) :
    (PhysicalMemoryBitmap.new start size bs).block_size = bs ∧
    (PhysicalMemoryBitmap.new start size bs).start_addr % bs = 0 ∧
    (PhysicalMemoryBitmap.new start size bs).reserved ≤
      (PhysicalMemoryBitmap.new start size bs).bitmap.length ∧
    (PhysicalMemoryBitmap.new start size bs).bitmap.length ≤
      (PhysicalMemoryBitmap.new start size bs).total_blocks ∧
    (∀ i, i < (PhysicalMemoryBitmap.new start size bs).reserved →
      testBit (PhysicalMemoryBitmap.new start size bs).bitmap i = true) ∧
    (PhysicalMemoryBitmap.new start size bs).blocks_remaining =
      countFree (PhysicalMemoryBitmap.new start size bs).bitmap
          (PhysicalMemoryBitmap.new start size bs).reserved +
        ((PhysicalMemoryBitmap.new start size bs).total_blocks -
          (PhysicalMemoryBitmap.new start size bs).bitmap.length) := by
  unfold PhysicalMemoryBitmap.new PhysicalMemoryBitmap.total_blocks
  simp only
  set A := alignUp start bs with hA
  set E := alignDown (start + size) bs with hE
  set asize := E - A with hasize
  set m := asize / bs / 8 with hm
  set resv := nextMultipleOf m bs / bs with hresv
  have hlen : (setBlocks (List.replicate (m * 8) false) 0 resv).length = m * 8 := by
    rw [length_setBlocks, List.length_replicate]
  have hresv8 : resv ≤ m * 8 := by
    rw [hresv, nextMultipleOf_div m bs hbs]
    exact ceil_div_le_eight_mul m bs hbs
  have hLle : m * 8 ≤ asize / bs := by
    rw [hm]
    exact Nat.div_mul_le_self (asize / bs) 8
  refine ⟨trivial, alignUp_mod start bs, ?_, ?_, ?_, ?_⟩
  · rw [hlen]; exact hresv8
  · rw [hlen]; exact hLle
  · intro i hi
    exact testBit_setBlocks_in 0 resv _ i (Nat.zero_le i) (by omega)
      (by rw [List.length_replicate]; omega)
  · have hfree : countFree (setBlocks (List.replicate (m * 8) false) 0 resv)
        resv = m * 8 - resv := by
      rw [countFree_all_false]
      · rw [hlen]
      · intro j hj1 hj2
        rw [testBit_setBlocks_out 0 resv _ j (by omega)]
        exact getD_replicate_false (m * 8) j
    rw [hfree, hlen]
    omega

/-! ### `PhysicalAllocator` (src/kernel/memory.rs, lines 116-179) -/

/-- `MAX_PHYS_REGIONS`. -/
def MAX_PHYS_REGIONS : Nat := 16

/-- Fixed-capacity array of optional per-extent bitmaps. -/
structure PhysicalAllocator where
  regions : List (Option PhysicalMemoryBitmap)
deriving Repr, DecidableEq

/-- `PhysicalAllocator::new()` — all sixteen region slots empty. -/
def PhysicalAllocator.new : PhysicalAllocator :=
  ⟨List.replicate MAX_PHYS_REGIONS none⟩

/-- `regions.iter_mut().find(|i| i.is_none())` then store the new bitmap;
`none` models the `panic!` when every slot is taken. -/
def reserveAux (bm : PhysicalMemoryBitmap) :
    List (Option PhysicalMemoryBitmap) →
      Option (List (Option PhysicalMemoryBitmap))
  | [] => none
  | none :: rest => some (some bm :: rest)
  | some r :: rest => (reserveAux bm rest).map (fun rs => some r :: rs)

/-- `PhysicalAllocator::reserve(start, size, block_size)`. -/
def PhysicalAllocator.reserve (a : PhysicalAllocator)
    (start size block_size : Nat) : Option PhysicalAllocator :=
  (reserveAux (PhysicalMemoryBitmap.new start size block_size) a.regions).map
    (fun rs => ⟨rs⟩)

/-- The `for region in self.regions.iter_mut().flatten()` loop of
`PhysicalAllocator::allocate`: the first region with `bytes_remaining >= size`
whose bitmap scan succeeds wins; a failed scan falls through to the next
region. -/
def allocateAux (size : Nat) :
    List (Option PhysicalMemoryBitmap) →
      Option (List (Option PhysicalMemoryBitmap) × PhysRegion)
  | [] => none
  | none :: rest =>
    (allocateAux size rest).map (fun p => (none :: p.1, p.2))
  | some bm :: rest =>
    if bm.bytes_remaining ≥ size then
      match bm.allocate (bm.bytes_to_blocks size) with
      | some (bm2, region) => some (some bm2 :: rest, region)
      | none => (allocateAux size rest).map (fun p => (some bm :: p.1, p.2))
    else
      (allocateAux size rest).map (fun p => (some bm :: p.1, p.2))

/-- `PhysicalAllocator::allocate(size)`. -/
def PhysicalAllocator.allocate (a : PhysicalAllocator) (size : Nat) :
    Option (PhysicalAllocator × PhysRegion) :=
  (allocateAux size a.regions).map (fun p => (⟨p.1⟩, p.2))

/-- `PhysicalAllocator::bytes_remaining()`. -/
def PhysicalAllocator.bytes_remaining (a : PhysicalAllocator) : Nat :=
  ((a.regions.filterMap id).map (fun bm => bm.bytes_remaining)).sum

/-- The loop of `PhysicalAllocator::deallocate`; `none` models both the
`panic!` after the loop (no region accepted the frame) and an assertion
failure inside `try_deallocate`. -/
def deallocateAux (frame : PhysRegion) :
    List (Option PhysicalMemoryBitmap) →
      Option (List (Option PhysicalMemoryBitmap))
  | [] => none
  | none :: rest => (deallocateAux frame rest).map (fun rs => none :: rs)
  | some bm :: rest =>
    match bm.try_deallocate frame with
    | none => none
    | some (bm2, true) => some (some bm2 :: rest)
    | some (_, false) => (deallocateAux frame rest).map (fun rs => some bm :: rs)

/-- `PhysicalAllocator::deallocate(frame)`. -/
def PhysicalAllocator.deallocate (a : PhysicalAllocator) (frame : PhysRegion) :
    Option PhysicalAllocator :=
  (deallocateAux frame a.regions).map (fun rs => ⟨rs⟩)

/-! ### Block-level ownership of live regions -/

/-- `r` is a region handed out by extent `bm` and still live: it covers blocks
`[sb, sb+k)` beyond the reserved prefix, all of whose bits are set. -/
def RegionOwned (bm : PhysicalMemoryBitmap) (r : PhysRegion) : Prop :=
  ∃ sb k, 0 < k ∧
    r.start_address = bm.start_addr + sb * bm.block_size ∧
    r.size = k * bm.block_size ∧
    bm.reserved ≤ sb ∧ sb + k ≤ bm.bitmap.length ∧
    ∀ j, sb ≤ j → j < sb + k → testBit bm.bitmap j = true

theorem intersects_eq_false_iff (a b : PhysRegion) :
    a.intersects b = false ↔
      (a.start_address + a.size ≤ b.start_address ∨
        b.start_address + b.size ≤ a.start_address) := by
  unfold PhysRegion.intersects
  simp [ge_iff_le]
  omega

theorem not_intersects_of_block_disjoint (a b : PhysRegion)
    (A bs sb1 k1 sb2 k2 : Nat)
    (ha1 : a.start_address = A + sb1 * bs) (ha2 : a.size = k1 * bs)
    (hb1 : b.start_address = A + sb2 * bs) (hb2 : b.size = k2 * bs)
    (hd : sb1 + k1 ≤ sb2 ∨ sb2 + k2 ≤ sb1) : a.intersects b = false := by
  rw [intersects_eq_false_iff, ha1, ha2, hb1, hb2]
  rcases hd with h | h
  · left
    have : (sb1 + k1) * bs ≤ sb2 * bs := Nat.mul_le_mul_right bs h
    rw [Nat.add_mul] at this
    omega
  · right
    have : (sb2 + k2) * bs ≤ sb1 * bs := Nat.mul_le_mul_right bs h
    rw [Nat.add_mul] at this
    omega

theorem block_disjoint_of_not_intersects (a b : PhysRegion)
    (A bs sb1 k1 sb2 k2 : Nat) (hbs : 0 < bs)
    (ha1 : a.start_address = A + sb1 * bs) (ha2 : a.size = k1 * bs)
    (hb1 : b.start_address = A + sb2 * bs) (hb2 : b.size = k2 * bs)
    (h : a.intersects b = false) : sb1 + k1 ≤ sb2 ∨ sb2 + k2 ≤ sb1 := by
  rw [intersects_eq_false_iff, ha1, ha2, hb1, hb2] at h
  rcases h with h | h
  · left
    have h2 : (sb1 + k1) * bs ≤ sb2 * bs := by rw [Nat.add_mul]; omega
    exact Nat.le_of_mul_le_mul_right h2 hbs
  · right
    have h2 : (sb2 + k2) * bs ≤ sb1 * bs := by rw [Nat.add_mul]; omega
    exact Nat.le_of_mul_le_mul_right h2 hbs

theorem clearBlocks_some : ∀ (k : Nat) (l : List Bool) (start : Nat),
    (∀ j, start ≤ j → j < start + k → testBit l j = true) →
    ∃ l2, clearBlocks l start k = some l2 := by
  intro k
  induction k with
  | zero => intro l start _; exact ⟨l, rfl⟩
  | succ k2 ih =>
    intro l start h
    obtain ⟨l2, hl2⟩ := ih (l.set start false) (start + 1)
      (fun j h1 h2 => by
        rw [testBit_set_ne l start j false (by omega)]
        exact h j (by omega) (by omega))
    refine ⟨l2, ?_⟩
    rw [clearBlocks, if_pos (h start (le_refl start) (by omega))]
    exact hl2

/-- On an extent that owns `r`, `try_deallocate` succeeds, clears exactly the
blocks of `r`, and credits them back to `blocks_remaining`. -/
theorem try_deallocate_owned (bm : PhysicalMemoryBitmap) (r : PhysRegion)
    (hbs : 0 < bm.block_size) (hlen : bm.bitmap.length ≤ bm.total_blocks)
    (sb k : Nat) (hk : 0 < k)
    (hstart : r.start_address = bm.start_addr + sb * bm.block_size)
    (hsize : r.size = k * bm.block_size)
    (hresv : bm.reserved ≤ sb) (hsbk : sb + k ≤ bm.bitmap.length)
    (hbits : ∀ j, sb ≤ j → j < sb + k → testBit bm.bitmap j = true) :
    ∃ bm2, clearBlocks bm.bitmap sb k = some bm2 ∧
      bm.try_deallocate r = some ({ bm with
          bitmap := bm2
          blocks_remaining := bm.blocks_remaining + k }, true) := by
  obtain ⟨bm2, hclear⟩ := clearBlocks_some k bm.bitmap sb hbits
  refine ⟨bm2, hclear, ?_⟩
  have hblocks : nextMultipleOf r.size bm.block_size / bm.block_size = k := by
    rw [hsize, nextMultipleOf_mul k bm.block_size hbs,
      Nat.mul_div_cancel k hbs]
  have hsb : (r.start_address - bm.start_addr) / bm.block_size = sb := by
    rw [hstart, Nat.add_sub_cancel_left, Nat.mul_div_cancel sb hbs]
  have hcf : bm.contains_frame r = true := by
    unfold PhysicalMemoryBitmap.contains_frame
    rw [hsb, hblocks]
    simp only [Bool.and_eq_true, decide_eq_true_eq]
    omega
  unfold PhysicalMemoryBitmap.try_deallocate
  dsimp only
  rw [hsb, hblocks, if_neg (by omega : ¬ sb < bm.reserved),
    if_neg (by rw [hcf]; exact fun hcontra => Bool.noConfusion hcontra),
    hclear]

/-! ### Trace semantics for a `PhysicalAllocator` seeded with one extent

A client trace is a list of operations: `alloc size` calls
`PhysicalAllocator::allocate(size)` and keeps the returned region (if any) in
the live list; `dealloc i` passes the `i`-th live region — exactly as
returned — back to `PhysicalAllocator::deallocate` (an index beyond the live
list is a no-op: no call is made).  `none` propagates a panic. -/

inductive AllocOp where
  | alloc (size : Nat)
  | dealloc (i : Nat)

structure TraceState where
  alloc : PhysicalAllocator
  live : List PhysRegion
deriving Repr, DecidableEq

def traceStep (s : TraceState) : AllocOp → Option TraceState
  | .alloc size =>
    match s.alloc.allocate size with
    | none => some s
    | some (a, r) => some ⟨a, s.live ++ [r]⟩
  | .dealloc i =>
    if h : i < s.live.length then
      match s.alloc.deallocate (s.live.get ⟨i, h⟩) with
      | none => none
      | some a => some ⟨a, s.live.eraseIdx i⟩
    else some s

def traceRun (s : TraceState) : List AllocOp → Option TraceState
  | [] => some s
  | op :: ops =>
    match traceStep s op with
    | none => none
    | some s2 => traceRun s2 ops

/-- The allocator right after `PhysicalAllocator::new()` followed by one
`reserve(start, size, block_size)`. -/
def seededAllocator (start size block_size : Nat) : PhysicalAllocator :=
  ⟨some (PhysicalMemoryBitmap.new start size block_size) ::
    List.replicate 15 none⟩

theorem seededAllocator_eq_reserve (start size block_size : Nat) :
    PhysicalAllocator.new.reserve start size block_size =
      some (seededAllocator start size block_size) := rfl

def seededState (start size block_size : Nat) : TraceState :=
  ⟨seededAllocator start size block_size, []⟩

/-- Total block count of the live regions, in units of the extent's blocks. -/
def liveBlocks (bs : Nat) (live : List PhysRegion) : Nat :=
  (live.map (fun r => r.size / bs)).sum

/-- Invariant tying one extent's bitmap to the client-visible live regions. -/
structure ExtInv (bm : PhysicalMemoryBitmap) (live : List PhysRegion) : Prop where
  bs_pos : 0 < bm.block_size
  aligned : bm.start_addr % bm.block_size = 0
  resv_le : bm.reserved ≤ bm.bitmap.length
  len_le : bm.bitmap.length ≤ bm.total_blocks
  resv_bits : ∀ i, i < bm.reserved → testBit bm.bitmap i = true
  counting : bm.blocks_remaining =
    countFree bm.bitmap bm.reserved + (bm.total_blocks - bm.bitmap.length)
  owned : ∀ r ∈ live, RegionOwned bm r
  disj : live.Pairwise (fun a b => a.intersects b = false)

theorem allocateAux_nones (size : Nat) : ∀ (n : Nat),
    allocateAux size (List.replicate n none) = none := by
  intro n
  induction n with
  | zero => rfl
  | succ m ih => rw [List.replicate, allocateAux, ih]; rfl

theorem deallocateAux_nones (frame : PhysRegion) : ∀ (n : Nat),
    deallocateAux frame (List.replicate n none) = none := by
  intro n
  induction n with
  | zero => rfl
  | succ m ih => rw [List.replicate, deallocateAux, ih]; rfl

theorem allocateAux_cons_some (size : Nat) (bm : PhysicalMemoryBitmap)
    (rest : List (Option PhysicalMemoryBitmap)) (res)
    (hrest : allocateAux size rest = none)
    (h : allocateAux size (some bm :: rest) = some res) :
    ∃ bm2, size ≤ bm.bytes_remaining ∧
      bm.allocate (bm.bytes_to_blocks size) = some (bm2, res.2) ∧
      res.1 = some bm2 :: rest := by
  rw [allocateAux] at h
  by_cases hge : bm.bytes_remaining ≥ size
  · rw [if_pos hge] at h
    cases halloc : bm.allocate (bm.bytes_to_blocks size) with
    | none => rw [halloc, hrest] at h; exact Option.noConfusion h
    | some p =>
      rw [halloc] at h
      have h2 := Option.some_inj.mp h
      subst h2
      exact ⟨p.1, hge, rfl, rfl⟩
  · rw [if_neg hge, hrest] at h
    exact Option.noConfusion h

/-- In a pairwise non-intersecting live list, the erased element does not
intersect any remaining element. -/
theorem erased_rel : ∀ (live : List PhysRegion) (i : Nat) (hi : i < live.length),
    live.Pairwise (fun a b => a.intersects b = false) →
    ∀ b ∈ live.eraseIdx i, (live.get ⟨i, hi⟩).intersects b = false := by
  intro live
  induction live with
  | nil => intro i hi; simp at hi
  | cons a t ih =>
    intro i hi hp b hb
    rcases List.pairwise_cons.mp hp with ⟨hhead, htail⟩
    cases i with
    | zero =>
      simp only [List.eraseIdx] at hb
      exact hhead b hb
    | succ j =>
      have hj : j < t.length := by simpa using hi
      have hget : (a :: t).get ⟨j + 1, hi⟩ = t.get ⟨j, hj⟩ := rfl
      simp only [List.eraseIdx] at hb
      rcases List.mem_cons.mp hb with rfl | hb2
      · rw [hget, intersects_comm]
        exact hhead _ (List.get_mem t j hj)
      · rw [hget]
        exact ih j hj htail b hb2

theorem sum_eraseIdx_get (f : PhysRegion → Nat) :
    ∀ (live : List PhysRegion) (i : Nat) (hi : i < live.length),
    ((live.eraseIdx i).map f).sum + f (live.get ⟨i, hi⟩) = (live.map f).sum := by
  intro live
  induction live with
  | nil => intro i hi; simp at hi
  | cons a t ih =>
    intro i hi
    cases i with
    | zero => simp [List.eraseIdx]; omega
    | succ j =>
      have hj : j < t.length := by simpa using hi
      have hget : (a :: t).get ⟨j + 1, hi⟩ = t.get ⟨j, hj⟩ := rfl
      have := ih j hj
      simp only [List.eraseIdx, List.map, List.sum_cons, hget]
      omega

/-- One trace step preserves the extent invariant, the one-extent shape of the
allocator, the extent's identity fields, and conservation of blocks between
the free counter and the live regions. -/
theorem traceStep_inv (s s2 : TraceState) (bm : PhysicalMemoryBitmap)
    (op : AllocOp)
    (hreg : s.alloc.regions = some bm :: List.replicate 15 none)
    (hinv : ExtInv bm s.live)
    (hstep : traceStep s op = some s2) :
    ∃ bm2, s2.alloc.regions = some bm2 :: List.replicate 15 none ∧
      ExtInv bm2 s2.live ∧
      bm2.block_size = bm.block_size ∧
      bm2.start_addr = bm.start_addr ∧
      bm2.total_blocks = bm.total_blocks ∧
      bm2.blocks_remaining + liveBlocks bm.block_size s2.live =
        bm.blocks_remaining + liveBlocks bm.block_size s.live := by
  cases op with
  | alloc size =>
    rw [traceStep] at hstep
    cases halloc : s.alloc.allocate size with
    | none =>
      rw [halloc] at hstep
      have hs2 : s2 = s := (Option.some_inj.mp hstep).symm
      subst hs2
      exact ⟨bm, hreg, hinv, rfl, rfl, rfl, rfl⟩
    | some p =>
      obtain ⟨a, r⟩ := p
      rw [halloc] at hstep
      have hs2 : s2 = ⟨a, s.live ++ [r]⟩ := (Option.some_inj.mp hstep).symm
      subst hs2
      unfold PhysicalAllocator.allocate at halloc
      cases haux : allocateAux size s.alloc.regions with
      | none => rw [haux] at halloc; exact Option.noConfusion halloc
      | some q =>
        rw [haux] at halloc
        have hq := Option.some_inj.mp halloc
        have ha : a = ⟨q.1⟩ := (congrArg Prod.fst hq).symm
        have hr : r = q.2 := (congrArg Prod.snd hq).symm
        rw [hreg] at haux
        obtain ⟨bmA, _hge, hballoc, hq1⟩ :=
          allocateAux_cons_some size bm (List.replicate 15 none) q
            (allocateAux_nones size 15) haux
        obtain ⟨sb, hb0, hsbge, hsble, hfreerun, hbmAeq, hreq⟩ :=
          allocate_some_spec bm (bm.bytes_to_blocks size) bmA q.2 hballoc
        subst hbmAeq
        -- the updated extent
        set blocks := bm.bytes_to_blocks size with hblocks
        have hrstart : r.start_address =
            bm.start_addr + sb * bm.block_size := by
          rw [hr, hreq]
        have hrsize : r.size = blocks * bm.block_size := by
          rw [hr, hreq]
        have hlive : (⟨a, s.live ++ [r]⟩ : TraceState).live = s.live ++ [r] := rfl
        have hcnt : countFree (setBlocks bm.bitmap sb blocks) bm.reserved +
            blocks = countFree bm.bitmap bm.reserved :=
          countFree_setBlocks blocks bm.bitmap sb bm.reserved hsbge
            (fun j h1 h2 => ⟨by omega, hfreerun j h1 h2⟩)
        have hgecnt : blocks ≤ countFree bm.bitmap bm.reserved :=
          countFree_ge_of_run bm.bitmap bm.reserved sb blocks hsbge hsble
            hfreerun
        refine ⟨{ bm with bitmap := setBlocks bm.bitmap sb blocks
                          blocks_remaining := bm.blocks_remaining - blocks },
          ?_, ?_, rfl, rfl, rfl, ?_⟩
        · rw [ha, hq1]
        · refine ⟨hinv.bs_pos, hinv.aligned, ?_, ?_, ?_, ?_, ?_, ?_⟩
          · simpa [length_setBlocks] using hinv.resv_le
          · simpa [length_setBlocks, PhysicalMemoryBitmap.total_blocks]
              using hinv.len_le
          · intro i hi
            have hi2 : i < bm.reserved := hi
            rw [testBit_setBlocks_out sb blocks bm.bitmap i (by omega)]
            exact hinv.resv_bits i hi2
          · have := hinv.counting
            dsimp only
            simp only [PhysicalMemoryBitmap.total_blocks, length_setBlocks]
            simp only [PhysicalMemoryBitmap.total_blocks] at this
            omega
          · intro r2 hr2
            rcases List.mem_append.mp hr2 with hmem | hmem
            · obtain ⟨sb2, k2, hk2, hst2, hsz2, hge2, hle2, hbits2⟩ :=
                hinv.owned r2 hmem
              exact ⟨sb2, k2, hk2, hst2, hsz2, hge2,
                by simpa [length_setBlocks] using hle2,
                fun j h1 h2 => testBit_setBlocks_mono sb blocks bm.bitmap j
                  (by omega) (hbits2 j h1 h2)⟩
            · have hr2r : r2 = r := by simpa using hmem
              subst hr2r
              exact ⟨sb, blocks, hb0, hrstart, hrsize, hsbge,
                by simpa [length_setBlocks] using hsble,
                fun j h1 h2 => testBit_setBlocks_in sb blocks bm.bitmap j h1 h2
                  (by omega)⟩
          · rw [List.pairwise_append]
            refine ⟨hinv.disj, List.pairwise_singleton _ _, ?_⟩
            intro x hx y hy
            have hyr : y = r := by simpa using hy
            obtain ⟨sbx, kx, hkx, hstx, hszx, hgex, hlex, hbitsx⟩ :=
              hinv.owned x hx
            have hdisj : sbx + kx ≤ sb ∨ sb + blocks ≤ sbx := by
              by_contra hcon
              push_neg at hcon
              have hxbit := hbitsx (max sb sbx) (le_max_right _ _) (by omega)
              have hfbit := hfreerun (max sb sbx) (le_max_left _ _) (by omega)
              rw [hxbit] at hfbit
              exact Bool.noConfusion hfbit
            rw [hyr]
            exact not_intersects_of_block_disjoint x r bm.start_addr
              bm.block_size sbx kx sb blocks hstx hszx hrstart hrsize hdisj
        · have hsum : liveBlocks bm.block_size (s.live ++ [r]) =
              liveBlocks bm.block_size s.live + blocks := by
            unfold liveBlocks
            rw [List.map_append, List.sum_append]
            simp [hrsize, Nat.mul_div_cancel blocks hinv.bs_pos]
          have := hinv.counting
          rw [hlive, hsum]
          dsimp only
          omega
  | dealloc i =>
    rw [traceStep] at hstep
    by_cases hi : i < s.live.length
    · rw [dif_pos hi] at hstep
      obtain ⟨sb, k, hk, hst, hsz, hge, hle, hbits⟩ :=
        hinv.owned (s.live.get ⟨i, hi⟩) (List.get_mem s.live i hi)
      obtain ⟨bmc, hclear, htd⟩ := try_deallocate_owned bm
        (s.live.get ⟨i, hi⟩) hinv.bs_pos hinv.len_le sb k hk hst hsz hge hle
        hbits
      unfold PhysicalAllocator.deallocate at hstep
      rw [hreg, deallocateAux, htd] at hstep
      dsimp only at hstep
      have hs2 := Option.some_inj.mp hstep
      subst hs2
      obtain ⟨hclen, hcout, hcin, hccnt⟩ := clearBlocks_spec k bm.bitmap bmc sb
        hclear
      refine ⟨_, rfl, ?_, rfl, rfl, rfl, ?_⟩
      · refine ⟨hinv.bs_pos, hinv.aligned, ?_, ?_, ?_, ?_, ?_, ?_⟩
        · simpa [hclen] using hinv.resv_le
        · simpa [hclen, PhysicalMemoryBitmap.total_blocks] using hinv.len_le
        · intro i2 hi2
          have hi3 : i2 < bm.reserved := hi2
          rw [hcout i2 (by omega)]
          exact hinv.resv_bits i2 hi3
        · have := hinv.counting
          have hc := hccnt bm.reserved (by omega)
          dsimp only
          simp only [PhysicalMemoryBitmap.total_blocks, hclen]
          simp only [PhysicalMemoryBitmap.total_blocks] at this
          omega
        · intro r2 hr2
          have hr2mem : r2 ∈ s.live :=
            (List.eraseIdx_sublist s.live i).subset hr2
          obtain ⟨sb2, k2, hk2, hst2, hsz2, hge2, hle2, hbits2⟩ :=
            hinv.owned r2 hr2mem
          have hni : (s.live.get ⟨i, hi⟩).intersects r2 = false :=
            erased_rel s.live i hi hinv.disj r2 hr2
          have hdisj : sb + k ≤ sb2 ∨ sb2 + k2 ≤ sb :=
            block_disjoint_of_not_intersects (s.live.get ⟨i, hi⟩) r2
              bm.start_addr bm.block_size sb k sb2 k2 hinv.bs_pos hst hsz
              hst2 hsz2 hni
          refine ⟨sb2, k2, hk2, hst2, hsz2, hge2, by simpa [hclen] using hle2,
            fun j h1 h2 => ?_⟩
          rw [hcout j (by omega)]
          exact hbits2 j h1 h2
        · exact hinv.disj.sublist (List.eraseIdx_sublist s.live i)
      · have hsum : ((s.live.eraseIdx i).map
              (fun r2 => r2.size / bm.block_size)).sum +
            (s.live.get ⟨i, hi⟩).size / bm.block_size =
            (s.live.map (fun r2 => r2.size / bm.block_size)).sum :=
          sum_eraseIdx_get (fun r2 => r2.size / bm.block_size) s.live i hi
        have hfk : (s.live.get ⟨i, hi⟩).size / bm.block_size = k := by
          rw [hsz, Nat.mul_div_cancel k hinv.bs_pos]
        rw [hfk] at hsum
        unfold liveBlocks
        dsimp only
        omega
    · rw [dif_neg hi] at hstep
      have hs2 : s2 = s := (Option.some_inj.mp hstep).symm
      subst hs2
      exact ⟨bm, hreg, hinv, rfl, rfl, rfl, rfl⟩

theorem traceRun_inv : ∀ (ops : List AllocOp) (s s2 : TraceState)
    (bm : PhysicalMemoryBitmap),
    s.alloc.regions = some bm :: List.replicate 15 none →
    ExtInv bm s.live →
    traceRun s ops = some s2 →
    ∃ bm2, s2.alloc.regions = some bm2 :: List.replicate 15 none ∧
      ExtInv bm2 s2.live ∧
      bm2.block_size = bm.block_size ∧
      bm2.start_addr = bm.start_addr ∧
      bm2.total_blocks = bm.total_blocks ∧
      bm2.blocks_remaining + liveBlocks bm.block_size s2.live =
        bm.blocks_remaining + liveBlocks bm.block_size s.live := by
  intro ops
  induction ops with
  | nil =>
    intro s s2 bm hreg hinv hrun
    have hs2 : s2 = s := (Option.some_inj.mp hrun).symm
    subst hs2
    exact ⟨bm, hreg, hinv, rfl, rfl, rfl, rfl⟩
  | cons op ops ih =>
    intro s s2 bm hreg hinv hrun
    rw [traceRun] at hrun
    cases hstep : traceStep s op with
    | none => rw [hstep] at hrun; exact Option.noConfusion hrun
    | some s1 =>
      rw [hstep] at hrun
      obtain ⟨bm1, hreg1, hinv1, hbs1, hsa1, htb1, hcons1⟩ :=
        traceStep_inv s s1 bm op hreg hinv hstep
      obtain ⟨bm2, hreg2, hinv2, hbs2, hsa2, htb2, hcons2⟩ :=
        ih s1 s2 bm1 hreg1 hinv1 hrun
      rw [hbs1] at hcons2
      exact ⟨bm2, hreg2, hinv2, by rw [hbs2, hbs1], by rw [hsa2, hsa1],
        by rw [htb2, htb1], by omega⟩

theorem seeded_ext_inv (start size block_size : Nat) (hbs : 0 < block_size) :
    ExtInv (PhysicalMemoryBitmap.new start size block_size) [] := by
  obtain ⟨h1, h2, h3, h4, h5, h6⟩ := new_spec start size block_size hbs
  exact ⟨by rw [h1]; exact hbs, by rw [h1]; exact h2, h3, h4, h5, h6,
    fun r hr => absurd hr (List.not_mem_nil r), List.Pairwise.nil⟩

/-- C1: for every sequence of allocate and deallocate calls on a
`PhysicalAllocator` seeded with one reserved extent, no two live (allocated
and not yet deallocated) `PhysRegion` values overlap in physical address
space. -/
theorem claim_C1 (start size block_size : Nat) (ops : List AllocOp)
    (s : TraceState) (hbs : 0 < block_size)
    (hrun : traceRun (seededState start size block_size) ops = some s) :
    s.live.Pairwise (fun a b => a.intersects b = false) := by
  obtain ⟨bm2, _, hinv2, _⟩ := traceRun_inv ops
    (seededState start size block_size) s
    (PhysicalMemoryBitmap.new start size block_size) rfl
    (seeded_ext_inv start size block_size hbs) hrun
  exact hinv2.disj

theorem claim_C1_witness :
    ∃ s, traceRun (seededState 0 8 1) [AllocOp.alloc 1, AllocOp.alloc 1] =
      some s ∧ s.live.Pairwise (fun a b => a.intersects b = false) := by
  have hsome : (traceRun (seededState 0 8 1)
      [AllocOp.alloc 1, AllocOp.alloc 1]).isSome = true := by decide
  refine ⟨_, (Option.some_get hsome).symm, ?_⟩
  exact claim_C1 0 8 1 [AllocOp.alloc 1, AllocOp.alloc 1] _ (by decide)
    (Option.some_get hsome).symm

/-- C3: `bytes_remaining()` after a sequence of allocate calls each matched by
a deallocate of the exact returned `PhysRegion` (final live list empty)
equals `bytes_remaining()` before the sequence. -/
theorem claim_C3 (start size block_size : Nat) (ops : List AllocOp)
    (s : TraceState) (hbs : 0 < block_size)
    (hrun : traceRun (seededState start size block_size) ops = some s)
    (hempty : s.live = []) :
    s.alloc.bytes_remaining =
      (seededState start size block_size).alloc.bytes_remaining := by
  obtain ⟨bm2, hreg2, _, hbs2, _, _, hcons2⟩ := traceRun_inv ops
    (seededState start size block_size) s
    (PhysicalMemoryBitmap.new start size block_size) rfl
    (seeded_ext_inv start size block_size hbs) hrun
  have h1 : s.alloc.bytes_remaining = bm2.bytes_remaining := by
    unfold PhysicalAllocator.bytes_remaining
    rw [hreg2]
    rfl
  have h2 : (seededState start size block_size).alloc.bytes_remaining =
      (PhysicalMemoryBitmap.new start size block_size).bytes_remaining := rfl
  rw [hempty] at hcons2
  have hrem : bm2.blocks_remaining =
      (PhysicalMemoryBitmap.new start size block_size).blocks_remaining := by
    have hlb : liveBlocks (PhysicalMemoryBitmap.new start size
        block_size).block_size ([] : List PhysRegion) = 0 := rfl
    have hlb2 : liveBlocks (PhysicalMemoryBitmap.new start size
        block_size).block_size (seededState start size block_size).live = 0 :=
      rfl
    omega
  rw [h1, h2]
  unfold PhysicalMemoryBitmap.bytes_remaining
  rw [hrem, hbs2]

theorem claim_C3_witness :
    ∃ s, traceRun (seededState 0 8 1) [AllocOp.alloc 2, AllocOp.dealloc 0] =
        some s ∧
      s.alloc.bytes_remaining = (seededState 0 8 1).alloc.bytes_remaining := by
  have hrun : traceRun (seededState 0 8 1)
      [AllocOp.alloc 2, AllocOp.dealloc 0] =
      some ⟨⟨some ⟨0, 8, 1, 7, 1,
        [true, false, false, false, false, false, false, false]⟩ ::
        List.replicate 15 none⟩, []⟩ := by decide
  exact ⟨_, hrun, claim_C3 0 8 1 [AllocOp.alloc 2, AllocOp.dealloc 0] _
    (by decide) hrun rfl⟩

/-! ### Claim C4: the bitmap invariant over reachable states -/

/-- The invariant exactly as the specification states it: reserved-prefix bits
all set, and `blocks_remaining` equal to the number of zero bits outside the
reserved prefix. -/
def ClaimedBitmapInv (bm : PhysicalMemoryBitmap) : Prop :=
  (∀ i, i < bm.reserved → testBit bm.bitmap i = true) ∧
  bm.blocks_remaining = countFree bm.bitmap bm.reserved

/-- The invariant the code actually maintains: `blocks_remaining` additionally
counts the trailing `total_blocks - bitmap_end` blocks of the extent that the
byte-granular bitmap cannot represent (the bitmap holds
`(total_blocks / 8) * 8` bits, rounding down). -/
def AmendedBitmapInv (bm : PhysicalMemoryBitmap) : Prop :=
  (∀ i, i < bm.reserved → testBit bm.bitmap i = true) ∧
  bm.blocks_remaining = countFree bm.bitmap bm.reserved +
    (bm.total_blocks - bm.bitmap.length)

/-- States of a `PhysicalMemoryBitmap` reachable from `new` (whose
`debug_assert!` requires a power-of-two block size) through `allocate` and
`try_deallocate` calls that do not panic. -/
inductive BmReachable : PhysicalMemoryBitmap → Prop where
  | new (start size block_size : Nat) (h : ∃ k, block_size = 2 ^ k) :
      BmReachable (PhysicalMemoryBitmap.new start size block_size)
  | alloc {st st2 : PhysicalMemoryBitmap} {blocks : Nat} {r : PhysRegion} :
      BmReachable st → st.allocate blocks = some (st2, r) → BmReachable st2
  | dealloc {st st2 : PhysicalMemoryBitmap} {frame : PhysRegion} {b : Bool} :
      BmReachable st → st.try_deallocate frame = some (st2, b) →
      BmReachable st2

/-- C4 (counterexample): the claimed invariant already fails right after
`new(0, 9, 1)` — a 9-block extent whose bitmap only represents 8 blocks:
`blocks_remaining = 8` but only 7 zero bits lie outside the reserved
prefix. -/
theorem claim_C4_counterexample :
    ¬ ClaimedBitmapInv (PhysicalMemoryBitmap.new 0 9 1) := by
  unfold ClaimedBitmapInv
  decide

/-- C4 (amended): in every reachable state of a `PhysicalMemoryBitmap`, the
bits in `[0, reserved)` are set, and `blocks_remaining` equals the number of
zero bits outside the reserved prefix plus the trailing blocks beyond the
bitmap's (byte-rounded) coverage. -/
theorem claim_C4 (bm : PhysicalMemoryBitmap) (h : BmReachable bm) :
    AmendedBitmapInv bm := by
  induction h with
  | new start size bs hp =>
    have hbs : 0 < bs := by
      obtain ⟨k, rfl⟩ := hp
      exact pow_pos (by norm_num) k
    obtain ⟨_, _, _, _, h5, h6⟩ := new_spec start size bs hbs
    exact ⟨h5, h6⟩
  | @alloc st st2 blocks r _ halloc ih =>
    obtain ⟨sb, hb0, hsbge, hsble, hfree, hst2eq, _⟩ :=
      allocate_some_spec st blocks st2 r halloc
    subst hst2eq
    obtain ⟨ihp, ihc⟩ := ih
    constructor
    · intro i hi
      have hi2 : i < st.reserved := hi
      show testBit (setBlocks st.bitmap sb blocks) i = true
      rw [testBit_setBlocks_out sb blocks st.bitmap i (by omega)]
      exact ihp i hi2
    · show st.blocks_remaining - blocks =
        countFree (setBlocks st.bitmap sb blocks) st.reserved +
          (st.size / st.block_size - (setBlocks st.bitmap sb blocks).length)
      have hcnt : countFree (setBlocks st.bitmap sb blocks) st.reserved +
          blocks = countFree st.bitmap st.reserved :=
        countFree_setBlocks blocks st.bitmap sb st.reserved hsbge
          (fun j h1 h2 => ⟨by omega, hfree j h1 h2⟩)
      have hgecnt : blocks ≤ countFree st.bitmap st.reserved :=
        countFree_ge_of_run st.bitmap st.reserved sb blocks hsbge hsble hfree
      have ihc2 : st.blocks_remaining = countFree st.bitmap st.reserved +
          (st.size / st.block_size - st.bitmap.length) := ihc
      rw [length_setBlocks]
      omega
  | @dealloc st st2 frame b _ htd ih =>
    cases b with
    | false =>
      have : st2 = st := try_deallocate_false_spec st frame st2 htd
      rw [this]
      exact ih
    | true =>
      obtain ⟨bm2, hge, _, hclear, hst2eq⟩ :=
        try_deallocate_true_spec st frame st2 htd
      subst hst2eq
      obtain ⟨hclen, hcout, hcin, hccnt⟩ := clearBlocks_spec _ st.bitmap bm2 _
        hclear
      obtain ⟨ihp, ihc⟩ := ih
      constructor
      · intro i hi
        have hi2 : i < st.reserved := hi
        show testBit bm2 i = true
        rw [hcout i (by omega)]
        exact ihp i hi2
      · show st.blocks_remaining +
            nextMultipleOf frame.size st.block_size / st.block_size =
          countFree bm2 st.reserved + (st.size / st.block_size - bm2.length)
        have hc := hccnt st.reserved (by omega)
        have ihc2 : st.blocks_remaining = countFree st.bitmap st.reserved +
            (st.size / st.block_size - st.bitmap.length) := ihc
        rw [hclen]
        omega

theorem claim_C4_witness :
    BmReachable (PhysicalMemoryBitmap.new 0 9 8) ∧
      AmendedBitmapInv (PhysicalMemoryBitmap.new 0 9 8) :=
  ⟨BmReachable.new 0 9 8 ⟨3, rfl⟩,
    claim_C4 _ (BmReachable.new 0 9 8 ⟨3, rfl⟩)⟩

/-! ### Claim C5: allocation fails cleanly when no free run exists -/

/-- Extent `bm` contains a run of `blocks` consecutive free (zero) bits
outside its reserved prefix. -/
def HasFreeRun (bm : PhysicalMemoryBitmap) (blocks : Nat) : Prop :=
  ∃ sb, bm.reserved ≤ sb ∧ sb + blocks ≤ bm.bitmap.length ∧
    ∀ j, sb ≤ j → j < sb + blocks → testBit bm.bitmap j = false

theorem allocateAux_none_of_no_run (size : Nat) :
    ∀ (rs : List (Option PhysicalMemoryBitmap)),
    (∀ bm, some bm ∈ rs → ¬ HasFreeRun bm (bm.bytes_to_blocks size)) →
    allocateAux size rs = none := by
  intro rs
  induction rs with
  | nil => intro _; rfl
  | cons o rest ih =>
    intro hno
    cases o with
    | none =>
      rw [allocateAux,
        ih (fun bm hm => hno bm (List.mem_cons_of_mem none hm))]
      rfl
    | some bm =>
      rw [allocateAux]
      have hrest := ih (fun bm2 hm => hno bm2 (List.mem_cons_of_mem _ hm))
      by_cases hge : bm.bytes_remaining ≥ size
      · rw [if_pos hge]
        cases halloc : bm.allocate (bm.bytes_to_blocks size) with
        | none => rw [hrest]; rfl
        | some p =>
          exfalso
          obtain ⟨sb, _, h1, h2, h3, _, _⟩ :=
            allocate_some_spec bm (bm.bytes_to_blocks size) p.1 p.2 halloc
          exact hno bm (List.mem_cons_self _ _) ⟨sb, h1, h2, h3⟩
      · rw [if_neg hge, hrest]; rfl

/-- C5: `PhysicalAllocator::allocate(size)` returns `None` — never a short or
partial region and never a panic — whenever no reserved extent contains a run
of enough consecutive free blocks to cover `size`. -/
theorem claim_C5 (a : PhysicalAllocator) (size : Nat)
    (hno : ∀ bm, some bm ∈ a.regions →
      ¬ HasFreeRun bm (bm.bytes_to_blocks size)) :
    a.allocate size = none := by
  unfold PhysicalAllocator.allocate
  rw [allocateAux_none_of_no_run size a.regions hno]
  rfl

theorem claim_C5_witness :
    (∀ bm, some bm ∈ (PhysicalAllocator.mk [some ⟨0, 8, 1, 6, 1,
        [true, true, false, false, false, false, false, false]⟩]).regions →
      ¬ HasFreeRun bm (bm.bytes_to_blocks 7)) ∧
    (PhysicalAllocator.mk [some ⟨0, 8, 1, 6, 1,
        [true, true, false, false, false, false, false, false]⟩]).allocate 7 =
      none := by
  have hno : ∀ bm, some bm ∈ (PhysicalAllocator.mk [some ⟨0, 8, 1, 6, 1,
      [true, true, false, false, false, false, false, false]⟩]).regions →
      ¬ HasFreeRun bm (bm.bytes_to_blocks 7) := by
    intro bm hm
    have hbm : bm = ⟨0, 8, 1, 6, 1,
        [true, true, false, false, false, false, false, false]⟩ := by
      simpa using hm
    subst hbm
    rintro ⟨sb, h1, h2, h3⟩
    have hb7 : (⟨0, 8, 1, 6, 1, [true, true, false, false, false, false,
        false, false]⟩ : PhysicalMemoryBitmap).bytes_to_blocks 7 = 7 := rfl
    rw [hb7] at h2 h3
    have hsb : sb = 1 := by
      have h1b : (1 : Nat) ≤ sb := h1
      have h2b : sb + 7 ≤ 8 := h2
      omega
    subst hsb
    have hbit := h3 1 (le_refl 1) (by omega)
    exact Bool.noConfusion hbit
  exact ⟨hno, claim_C5 _ 7 hno⟩

/-! ### Claim C6: shape of every allocated region -/

theorem allocateAux_some_shape (size : Nat) :
    ∀ (rs : List (Option PhysicalMemoryBitmap))
      (res : List (Option PhysicalMemoryBitmap) × PhysRegion),
    (∀ bm, some bm ∈ rs →
      0 < bm.block_size ∧ bm.start_addr % bm.block_size = 0) →
    allocateAux size rs = some res →
    ∃ bm, some bm ∈ rs ∧ res.2.start_address % bm.block_size = 0 ∧
      res.2.size % bm.block_size = 0 ∧ size ≤ res.2.size := by
  intro rs
  induction rs with
  | nil => intro res _ h; exact Option.noConfusion h
  | cons o rest ih =>
    intro res halign h
    cases o with
    | none =>
      rw [allocateAux] at h
      cases haux : allocateAux size rest with
      | none => rw [haux] at h; exact Option.noConfusion h
      | some q =>
        rw [haux] at h
        have hres := Option.some_inj.mp h
        obtain ⟨bm, hmem, hp⟩ := ih q
          (fun bm2 hm => halign bm2 (List.mem_cons_of_mem _ hm)) haux
        refine ⟨bm, List.mem_cons_of_mem _ hmem, ?_⟩
        have h2 : res.2 = q.2 := by rw [← hres]
        rw [h2]
        exact hp
    | some bm =>
      rw [allocateAux] at h
      by_cases hge : bm.bytes_remaining ≥ size
      · rw [if_pos hge] at h
        cases halloc : bm.allocate (bm.bytes_to_blocks size) with
        | none =>
          rw [halloc] at h
          cases haux : allocateAux size rest with
          | none => rw [haux] at h; exact Option.noConfusion h
          | some q =>
            rw [haux] at h
            have hres := Option.some_inj.mp h
            obtain ⟨bm2, hmem, hp⟩ := ih q
              (fun bm3 hm => halign bm3 (List.mem_cons_of_mem _ hm)) haux
            refine ⟨bm2, List.mem_cons_of_mem _ hmem, ?_⟩
            have h2 : res.2 = q.2 := by rw [← hres]
            rw [h2]
            exact hp
        | some p =>
          rw [halloc] at h
          have hres := Option.some_inj.mp h
          have h2 : res.2 = p.2 := by rw [← hres]
          obtain ⟨hbs, hal⟩ := halign bm (List.mem_cons_self _ _)
          obtain ⟨sb, hb0, _, _, _, _, hreq⟩ :=
            allocate_some_spec bm (bm.bytes_to_blocks size) p.1 p.2 halloc
          refine ⟨bm, List.mem_cons_self _ _, ?_, ?_, ?_⟩
          · rw [h2, hreq]
            show (bm.start_addr + sb * bm.block_size) % bm.block_size = 0
            rw [Nat.add_mul_mod_self_right]
            exact hal
          · rw [h2, hreq]
            show bm.bytes_to_blocks size * bm.block_size % bm.block_size = 0
            exact Nat.mul_mod_left _ _
          · rw [h2, hreq]
            show size ≤ bm.bytes_to_blocks size * bm.block_size
            unfold PhysicalMemoryBitmap.bytes_to_blocks
            rw [nextMultipleOf_div_mul size bm.block_size hbs]
            exact le_nextMultipleOf size bm.block_size hbs
      · rw [if_neg hge] at h
        cases haux : allocateAux size rest with
        | none => rw [haux] at h; exact Option.noConfusion h
        | some q =>
          rw [haux] at h
          have hres := Option.some_inj.mp h
          obtain ⟨bm2, hmem, hp⟩ := ih q
            (fun bm3 hm => halign bm3 (List.mem_cons_of_mem _ hm)) haux
          refine ⟨bm2, List.mem_cons_of_mem _ hmem, ?_⟩
          have h2 : res.2 = q.2 := by rw [← hres]
          rw [h2]
          exact hp

/-- C6: every `PhysRegion` returned by `PhysicalAllocator::allocate(size)`
has a start address aligned to the owning extent's block size and a size that
is an exact multiple of that block size and at least `size`. -/
theorem claim_C6 (a a2 : PhysicalAllocator) (size : Nat) (r : PhysRegion)
    (halign : ∀ bm, some bm ∈ a.regions →
      0 < bm.block_size ∧ bm.start_addr % bm.block_size = 0)
    (h : a.allocate size = some (a2, r)) :
    ∃ bm, some bm ∈ a.regions ∧ r.start_address % bm.block_size = 0 ∧
      r.size % bm.block_size = 0 ∧ size ≤ r.size := by
  unfold PhysicalAllocator.allocate at h
  cases haux : allocateAux size a.regions with
  | none => rw [haux] at h; exact Option.noConfusion h
  | some q =>
    rw [haux] at h
    have hr : r = q.2 := congrArg Prod.snd (Option.some_inj.mp h).symm
    obtain ⟨bm, hmem, hp⟩ := allocateAux_some_shape size a.regions q halign haux
    rw [hr]
    exact ⟨bm, hmem, hp⟩

theorem claim_C6_witness :
    (∀ bm, some bm ∈ (PhysicalAllocator.mk [some ⟨0, 8, 1, 6, 1,
        [true, true, false, false, false, false, false, false]⟩]).regions →
      0 < bm.block_size ∧ bm.start_addr % bm.block_size = 0) ∧
    ∃ bm, some bm ∈ (PhysicalAllocator.mk [some ⟨0, 8, 1, 6, 1,
        [true, true, false, false, false, false, false, false]⟩]).regions ∧
      (PhysRegion.mk 2 3).start_address % bm.block_size = 0 ∧
      (PhysRegion.mk 2 3).size % bm.block_size = 0 ∧
      3 ≤ (PhysRegion.mk 2 3).size := by
  have halign : ∀ bm, some bm ∈ (PhysicalAllocator.mk [some ⟨0, 8, 1, 6, 1,
      [true, true, false, false, false, false, false, false]⟩]).regions →
      0 < bm.block_size ∧ bm.start_addr % bm.block_size = 0 := by
    intro bm hm
    have hbm : bm = ⟨0, 8, 1, 6, 1,
        [true, true, false, false, false, false, false, false]⟩ := by
      simpa using hm
    subst hbm
    exact ⟨by decide, by decide⟩
  exact ⟨halign, claim_C6 _ (PhysicalAllocator.mk [some ⟨0, 8, 1, 3, 1,
    [true, true, true, true, true, false, false, false]⟩]) 3
    (PhysRegion.mk 2 3) halign (by decide)⟩

/-! ### Claim C2: interrupt-off nesting (src/kernel/cpu.rs, lines 89-122)

The per-CPU interrupt state is the `ncli`/`intena` pair of `Cpu` plus the
CPU's interrupt-enable flag (RFLAGS.IF, read through
`interrupts::are_enabled()` and written by `interrupts::disable()` /
`interrupts::enable()`).  `ncli` is a `u32`; the model uses `Nat` (a nesting
depth near `2^32` would overflow-panic in checked builds).  The
`cpu::push_interrupt_off` / `cpu::pop_interrupt_off` pair in
`src/kernel/arch.rs` (lines 567-592) is the same algorithm with the counter
named `noff`; this embedding covers both. -/

structure CpuIntState where
  ncli : Nat
  intena : Bool
  ienabled : Bool
deriving Repr, DecidableEq

/-- `Cpu::push_interrupt_off`. -/
def pushInterruptOff (c : CpuIntState) : CpuIntState :=
  let enabled := c.ienabled
  -- `interrupts::disable()`
  let c2 : CpuIntState := { c with ienabled := false }
  let c3 : CpuIntState :=
    if c2.ncli = 0 then { c2 with intena := enabled } else c2
  { c3 with ncli := c3.ncli + 1 }

/-- `Cpu::pop_interrupt_off`; `none` models the two `assert!` panics
(interrupts still enabled, or popping with a zero counter). -/
def popInterruptOff (c : CpuIntState) : Option CpuIntState :=
  if c.ienabled then none
  else if c.ncli < 1 then none
  else
    let c2 : CpuIntState := { c with ncli := c.ncli - 1 }
    if c2.ncli = 0 && c2.intena then some { c2 with ienabled := true }
    else some c2

inductive IntOp where
  | push
  | pop

def runIntOps (c : CpuIntState) : List IntOp → Option CpuIntState
  | [] => some c
  | .push :: ops => runIntOps (pushInterruptOff c) ops
  | .pop :: ops =>
    match popInterruptOff c with
    | none => none
    | some c2 => runIntOps c2 ops

/-- Nesting depth after a sequence of pushes and pops starting from depth
`d`; `none` when some prefix has more pops than pushes (improper pairing). -/
def depthRun (d : Nat) : List IntOp → Option Nat
  | [] => some d
  | .push :: ops => depthRun (d + 1) ops
  | .pop :: ops => if d = 0 then none else depthRun (d - 1) ops

theorem depthRun_append (p q : List IntOp) : ∀ (d : Nat),
    depthRun d (p ++ q) =
      match depthRun d p with
      | none => none
      | some d2 => depthRun d2 q := by
  induction p with
  | nil => intro d; rfl
  | cons op t ih =>
    intro d
    cases op with
    | push => rw [List.cons_append, depthRun, depthRun, ih]
    | pop =>
      rw [List.cons_append, depthRun, depthRun]
      by_cases hd : d = 0
      · rw [if_pos hd, if_pos hd]
      · rw [if_neg hd, if_neg hd, ih]

/-- The invariant during a properly nested sequence: the counter tracks the
depth; at positive depth interrupts are masked and `intena` remembers the
outermost pre-push state `e0`; at depth zero the flag equals `e0`. -/
def IntInv (e0 : Bool) (d : Nat) (c : CpuIntState) : Prop :=
  c.ncli = d ∧
    (d = 0 → c.ienabled = e0) ∧
    (d ≠ 0 → c.ienabled = false ∧ c.intena = e0)


theorem pushInterruptOff_eq (c : CpuIntState) :
    pushInterruptOff c =
      ⟨c.ncli + 1, if c.ncli = 0 then c.ienabled else c.intena, false⟩ := by
  by_cases h : c.ncli = 0 <;> simp [pushInterruptOff, h]

theorem popInterruptOff_eq (c : CpuIntState) (h1 : c.ienabled = false)
    (h2 : 1 ≤ c.ncli) :
    popInterruptOff c =
      some ⟨c.ncli - 1, c.intena, decide (c.ncli - 1 = 0) && c.intena⟩ := by
  unfold popInterruptOff
  rw [h1, if_neg Bool.false_ne_true, if_neg (by omega : ¬ c.ncli < 1)]
  by_cases hb : (decide (c.ncli - 1 = 0) && c.intena) = true
  · simp only [hb, if_pos]
  · simp only [hb, if_neg, Bool.not_eq_true]

theorem runIntOps_inv (e0 : Bool) : ∀ (ops : List IntOp) (d d2 : Nat)
    (c : CpuIntState),
    depthRun d ops = some d2 →
    IntInv e0 d c →
    ∃ c2, runIntOps c ops = some c2 ∧ IntInv e0 d2 c2 := by
  intro ops
  induction ops with
  | nil =>
    intro d d2 c hdep hinv
    have hdd : d = d2 := Option.some_inj.mp hdep
    subst hdd
    exact ⟨c, rfl, hinv⟩
  | cons op t ih =>
    intro d d2 c hdep hinv
    obtain ⟨hn, h0, hpos⟩ := hinv
    cases op with
    | push =>
      rw [depthRun] at hdep
      rw [runIntOps, pushInterruptOff_eq]
      refine ih (d + 1) d2 _ hdep ⟨?_, ?_, ?_⟩
      · show c.ncli + 1 = d + 1
        omega
      · intro h
        omega
      · intro _
        refine ⟨rfl, ?_⟩
      -- the saved flag: set on the outermost push, kept on inner pushes
        show (if c.ncli = 0 then c.ienabled else c.intena) = e0
        by_cases hd : d = 0
        · rw [if_pos (by omega)]
          exact h0 hd
        · rw [if_neg (by omega)]
          exact (hpos hd).2
    | pop =>
      rw [depthRun] at hdep
      by_cases hd : d = 0
      · rw [if_pos hd] at hdep
        exact Option.noConfusion hdep
      · rw [if_neg hd] at hdep
        obtain ⟨hie, hia⟩ := hpos hd
        rw [runIntOps, popInterruptOff_eq c hie (by omega)]
        refine ih (d - 1) d2 _ hdep ⟨?_, ?_, ?_⟩
        · show c.ncli - 1 = d - 1
          omega
        · intro hz
          show (decide (c.ncli - 1 = 0) && c.intena) = e0
          rw [decide_eq_true (by omega : c.ncli - 1 = 0), Bool.true_and]
          exact hia
        · intro hnz
          constructor
          · show (decide (c.ncli - 1 = 0) && c.intena) = false
            rw [decide_eq_false (by omega : ¬ c.ncli - 1 = 0),
              Bool.false_and]
          · exact hia

/-- C2: for every correctly paired sequence of
`push_interrupt_off`/`pop_interrupt_off` calls starting at nesting depth
zero, the CPU interrupt-enable flag after the outermost pop equals the flag
observed before the outermost push, and after any prefix on which the nesting
counter is still nonzero the flag is off (no inner pop re-enables
interrupts). -/
theorem claim_C2 (ops : List IntOp) (c0 : CpuIntState)
    (hbal : depthRun 0 ops = some 0) (h0 : c0.ncli = 0) :
    (∃ c2, runIntOps c0 ops = some c2 ∧ c2.ienabled = c0.ienabled ∧
      c2.ncli = 0) ∧
    (∀ p q cp, ops = p ++ q → runIntOps c0 p = some cp →
      cp.ncli ≠ 0 → cp.ienabled = false) := by
  have hinv0 : IntInv c0.ienabled 0 c0 :=
    ⟨h0, fun _ => rfl, fun hne => absurd rfl hne⟩
  constructor
  · obtain ⟨c2, hrun, hi⟩ := runIntOps_inv c0.ienabled ops 0 0 c0 hbal hinv0
    exact ⟨c2, hrun, hi.2.1 rfl, hi.1⟩
  · intro p q cp happ hp hne
    subst happ
    rw [depthRun_append] at hbal
    cases hdp : depthRun 0 p with
    | none => rw [hdp] at hbal; exact Option.noConfusion hbal
    | some dp =>
      obtain ⟨cp2, hrun2, hi2⟩ :=
        runIntOps_inv c0.ienabled p 0 dp c0 hdp hinv0
      have hcc : cp2 = cp := by
        rw [hp] at hrun2
        exact (Option.some_inj.mp hrun2).symm
      subst hcc
      have : dp ≠ 0 := by
        obtain ⟨ha, _, _⟩ := hi2
        omega
      exact (hi2.2.2 this).1

theorem claim_C2_witness :
    (depthRun 0 [IntOp.push, IntOp.push, IntOp.pop, IntOp.pop] = some 0 ∧
      (⟨0, false, true⟩ : CpuIntState).ncli = 0) ∧
    ((∃ c2, runIntOps ⟨0, false, true⟩
        [IntOp.push, IntOp.push, IntOp.pop, IntOp.pop] = some c2 ∧
        c2.ienabled = (⟨0, false, true⟩ : CpuIntState).ienabled ∧
        c2.ncli = 0) ∧
      (∀ p q cp, [IntOp.push, IntOp.push, IntOp.pop, IntOp.pop] = p ++ q →
        runIntOps ⟨0, false, true⟩ p = some cp →
        cp.ncli ≠ 0 → cp.ienabled = false)) :=
  ⟨⟨by decide, by decide⟩,
    claim_C2 [IntOp.push, IntOp.push, IntOp.pop, IntOp.pop] ⟨0, false, true⟩
      (by decide) (by decide)⟩

/-! ### Claim C7: `kerneltrap` dispatch (src/kernel/trap.rs, lines 11-71)

`kerneltrap` is embedded as a pure function from the vector number to the
action it takes: a panic (three distinct panic sites) or the list of side
effects it performs (the console handler call followed by the port writes of
`end_of_interrupt`). -/

def IO_PIC1_COMMAND : Nat := 0x20
def IO_PIC2_COMMAND : Nat := 0xA0
def TRAP_IRQ0 : Nat := 0x20
def IRQ_COM1 : Nat := 4
def CMD_END_OF_INTERRUPT : Nat := 0x20

/-- `ExceptionVector::GeneralProtection as u8` (x86_64 crate). -/
def GENERAL_PROTECTION_VECTOR : Nat := 13

/-- `ExceptionVector::Page as u8` (x86_64 crate). -/
def PAGE_FAULT_VECTOR : Nat := 14

inductive TrapEffect where
  | consoleInterrupt
  | picWrite (port : Nat) (value : Nat)
deriving Repr, DecidableEq

/-- `end_of_interrupt(v)`: ack the master PIC for vectors in
`[TRAP_IRQ0, TRAP_IRQ0+8)`, the slave PIC for `[TRAP_IRQ0+8, TRAP_IRQ0+16)`,
and do nothing otherwise. -/
def end_of_interrupt (v : Nat) : List TrapEffect :=
  if TRAP_IRQ0 ≤ v ∧ v < TRAP_IRQ0 + 8 then
    [TrapEffect.picWrite IO_PIC1_COMMAND CMD_END_OF_INTERRUPT]
  else if TRAP_IRQ0 + 8 ≤ v ∧ v < TRAP_IRQ0 + 16 then
    [TrapEffect.picWrite IO_PIC2_COMMAND CMD_END_OF_INTERRUPT]
  else []

inductive TrapOutcome where
  | panicGeneralProtection
  | panicPageFault
  | effects (es : List TrapEffect)
  | panicUnknown (index : Nat)
deriving Repr, DecidableEq

/-- `kerneltrap(_, index, _)`: the `match index` dispatch. -/
def kerneltrap (index : Nat) : TrapOutcome :=
  if index = GENERAL_PROTECTION_VECTOR then TrapOutcome.panicGeneralProtection
  else if index = PAGE_FAULT_VECTOR then TrapOutcome.panicPageFault
  else if index = IRQ_COM1 + TRAP_IRQ0 then
    TrapOutcome.effects (TrapEffect.consoleInterrupt :: end_of_interrupt index)
  else TrapOutcome.panicUnknown index

/-- C7 (counterexample): vector `0x20` (the timer line) lies in the
hardware-IRQ range `[0x20, 0x30)` but `kerneltrap` panics on it instead of
invoking a registered handler and signalling end-of-interrupt. -/
theorem claim_C7_counterexample :
    TRAP_IRQ0 ≤ 0x20 ∧ 0x20 < TRAP_IRQ0 + 16 ∧
      kerneltrap 0x20 = TrapOutcome.panicUnknown 0x20 := by
  decide

/-- C7 (amended): `kerneltrap` panics on the general-protection and
page-fault vectors; the single COM1 vector `0x24` runs the console interrupt
handler and then signals end-of-interrupt to the master PIC; every other
vector — including every other vector of the hardware-IRQ range — panics
with the vector number. -/
theorem claim_C7 (v : Nat) :
    kerneltrap GENERAL_PROTECTION_VECTOR =
      TrapOutcome.panicGeneralProtection ∧
    kerneltrap PAGE_FAULT_VECTOR = TrapOutcome.panicPageFault ∧
    kerneltrap (IRQ_COM1 + TRAP_IRQ0) = TrapOutcome.effects
      [TrapEffect.consoleInterrupt,
        TrapEffect.picWrite IO_PIC1_COMMAND CMD_END_OF_INTERRUPT] ∧
    (v ≠ GENERAL_PROTECTION_VECTOR → v ≠ PAGE_FAULT_VECTOR →
      v ≠ IRQ_COM1 + TRAP_IRQ0 → kerneltrap v = TrapOutcome.panicUnknown v) := by
  refine ⟨by decide, by decide, by decide, ?_⟩
  intro h1 h2 h3
  unfold kerneltrap
  rw [if_neg h1, if_neg h2, if_neg h3]

theorem claim_C7_witness :
    ((0x21 : Nat) ≠ GENERAL_PROTECTION_VECTOR ∧
      (0x21 : Nat) ≠ PAGE_FAULT_VECTOR ∧
      (0x21 : Nat) ≠ IRQ_COM1 + TRAP_IRQ0) ∧
    kerneltrap 0x21 = TrapOutcome.panicUnknown 0x21 :=
  ⟨⟨by decide, by decide, by decide⟩,
    (claim_C7 0x21).2.2.2 (by decide) (by decide) (by decide)⟩

/-! ### Claims C8 and C9: the GDT (src/kernel/arch.rs, lines 128-347) -/

/-- `BitField::get_bits(lo..hi)` on a `Nat`-modelled machine word. -/
def getBitsRange (x lo hi : Nat) : Nat :=
  (x >>> lo) % 2 ^ (hi - lo)

/-- `BitField::set_bits(lo..hi, v)`: replace bits `[lo, hi)` of `x` by `v`
(all call sites pass a value that fits, so the truncation `v % 2^(hi-lo)` is
exact). -/
def setBitsRange (x lo hi v : Nat) : Nat :=
  ((x >>> hi) <<< hi) + ((v % 2 ^ (hi - lo)) <<< lo) + x % 2 ^ lo

/-- `SegmentDescriptor` — `UserSegment(u64)` or `SystemSegment(u64, u64)`. -/
inductive SegmentDescriptor where
  | UserSegment (value : Nat)
  | SystemSegment (low high : Nat)
deriving Repr, DecidableEq

/-- `SegmentDescriptorFlags::DPL_RING_3 = 3 << 45`. -/
def DPL_RING_3 : Nat := 3 <<< 45

/-- `SegmentDescriptor::dpl`: `(value_low & DPL_RING_3) >> 45`. -/
def SegmentDescriptor.dpl : SegmentDescriptor → Nat
  | .UserSegment v => (v &&& DPL_RING_3) >>> 45
  | .SystemSegment v _ => (v &&& DPL_RING_3) >>> 45

/-- `SegmentDescriptorFlags` constants used to build the fixed entries. -/
def SEG_ACCESSED : Nat := 1 <<< 40
def SEG_WRITABLE : Nat := 1 <<< 41
def SEG_EXECUTABLE : Nat := 1 <<< 43
def SEG_USER_SEGMENT : Nat := 1 <<< 44
def SEG_PRESENT : Nat := 1 <<< 47
def SEG_LONG_MODE : Nat := 1 <<< 53
def SEG_DEFAULT_SIZE : Nat := 1 <<< 54
def SEG_GRANULARITY : Nat := 1 <<< 55
def SEG_LIMIT_0_15 : Nat := 0xFFFF
def SEG_LIMIT_16_19 : Nat := 0xF <<< 48

def SEG_COMMON : Nat :=
  SEG_USER_SEGMENT ||| SEG_PRESENT ||| SEG_WRITABLE ||| SEG_ACCESSED |||
    SEG_LIMIT_0_15 ||| SEG_LIMIT_16_19 ||| SEG_GRANULARITY

/-- `SegmentDescriptor::kernel_code_segment()`. -/
def SegmentDescriptor.kernel_code_segment : SegmentDescriptor :=
  .UserSegment (SEG_COMMON ||| SEG_EXECUTABLE ||| SEG_LONG_MODE)

/-- `SegmentDescriptor::kernel_data_segment()`. -/
def SegmentDescriptor.kernel_data_segment : SegmentDescriptor :=
  .UserSegment (SEG_COMMON ||| SEG_DEFAULT_SIZE)

/-- `SegmentDescriptor::user_code_segment()`. -/
def SegmentDescriptor.user_code_segment : SegmentDescriptor :=
  .UserSegment (SEG_COMMON ||| SEG_EXECUTABLE ||| SEG_LONG_MODE ||| DPL_RING_3)

/-- `SegmentDescriptor::user_data_segment()`. -/
def SegmentDescriptor.user_data_segment : SegmentDescriptor :=
  .UserSegment (SEG_COMMON ||| SEG_DEFAULT_SIZE ||| DPL_RING_3)

/-- `size_of::<TaskStateSegment>()` — 4 + 3*8 + 8 + 7*8 + 8 + 2 + 2 bytes
with `repr(C, packed(4))`. -/
def TSS_SIZE : Nat := 104

/-- `SegmentDescriptor::tss_segment(&tss)`, with `ptr` the TSS address. -/
def SegmentDescriptor.tss_segment (ptr : Nat) : SegmentDescriptor :=
  let low := SEG_PRESENT
  let low := setBitsRange low 16 40 (getBitsRange ptr 0 24)
  let low := setBitsRange low 56 64 (getBitsRange ptr 24 32)
  let low := setBitsRange low 0 16 (TSS_SIZE - 1)
  let low := setBitsRange low 40 44 0b1001
  let high := setBitsRange 0 0 32 (getBitsRange ptr 32 64)
  .SystemSegment low high

/-- `SegmentSelector` — a `u16`: `index << 3 | rpl`. -/
structure SegmentSelector where
  bits : Nat
deriving Repr, DecidableEq

/-- `SegmentSelector::new(index, rpl)`; the `as u16` truncation is the
`% 2^16`. -/
def SegmentSelector.new (index rpl : Nat) : SegmentSelector :=
  ⟨(index <<< 3 ||| rpl) % 2 ^ 16⟩

/-- `SegmentSelector::index`. -/
def SegmentSelector.index (s : SegmentSelector) : Nat :=
  s.bits >>> 3

/-- `GlobalDescriptorTable` — eight raw `u64` slots and a logical length;
`new()` leaves slot 0 as the null descriptor and starts writing at slot 1. -/
structure GlobalDescriptorTable where
  table : List Nat
  len : Nat
deriving Repr, DecidableEq

def GlobalDescriptorTable.new : GlobalDescriptorTable :=
  ⟨List.replicate 8 0, 1⟩

/-- `GlobalDescriptorTable::push` — `self.table[index] = value; self.len += 1`
(callers guarantee `index` is in bounds, so the `List.set` never drops a
write). -/
def GlobalDescriptorTable.push (g : GlobalDescriptorTable) (value : Nat) :
    GlobalDescriptorTable × Nat :=
  (⟨g.table.set g.len value, g.len + 1⟩, g.len)

/-- `GlobalDescriptorTable::add_entry`; `none` models the
`panic!("too many entries in GDT")`. -/
def GlobalDescriptorTable.add_entry (g : GlobalDescriptorTable)
    (entry : SegmentDescriptor) :
    Option (GlobalDescriptorTable × SegmentSelector) :=
  match
    (match entry with
      | .UserSegment value =>
        if g.len > g.table.length - 1 then none
        else some (g.push value)
      | .SystemSegment val_low val_hi =>
        if g.len > g.table.length - 2 then none
        else
          let p := g.push val_low
          some ((p.1.push val_hi).1, p.2)) with
  | none => none
  | some p => some (p.1, SegmentSelector.new p.2 entry.dpl)

/-- C8: `add_entry` with a `SystemSegment` (2-slot) descriptor panics
whenever the 8-slot table's free capacity is under 2 slots, and otherwise
writes both descriptor words into two contiguous slots (no truncation). -/
theorem claim_C8 (g : GlobalDescriptorTable) (low high : Nat)
    (hlen : g.table.length = 8) :
    (g.table.length - g.len < 2 →
      g.add_entry (SegmentDescriptor.SystemSegment low high) = none) ∧
    (g.len ≤ g.table.length - 2 →
      ∃ sel, g.add_entry (SegmentDescriptor.SystemSegment low high) =
        some (⟨(g.table.set g.len low).set (g.len + 1) high, g.len + 2⟩,
          sel)) := by
  constructor
  · intro h
    unfold GlobalDescriptorTable.add_entry
    dsimp only
    rw [if_pos (by omega)]
  · intro h
    unfold GlobalDescriptorTable.add_entry
    dsimp only
    rw [if_neg (by omega)]
    simp only [GlobalDescriptorTable.push]
    exact ⟨_, rfl⟩

theorem claim_C8_witness :
    ((GlobalDescriptorTable.mk (List.replicate 8 0) 7).table.length = 8 ∧
      (GlobalDescriptorTable.mk (List.replicate 8 0) 7).table.length -
        (GlobalDescriptorTable.mk (List.replicate 8 0) 7).len < 2) ∧
    (GlobalDescriptorTable.mk (List.replicate 8 0) 7).add_entry
      (SegmentDescriptor.SystemSegment 0 0) = none :=
  ⟨⟨by decide, by decide⟩,
    (claim_C8 (GlobalDescriptorTable.mk (List.replicate 8 0) 7) 0 0
      (by decide)).1 (by decide)⟩

theorem dpl_le_three (e : SegmentDescriptor) : e.dpl ≤ 3 := by
  have key : ∀ v : Nat, (v &&& DPL_RING_3) >>> 45 ≤ 3 := by
    intro v
    have h1 : v &&& DPL_RING_3 ≤ DPL_RING_3 := Nat.and_le_right
    have h2 : DPL_RING_3 = 3 * 2 ^ 45 := by
      unfold DPL_RING_3
      rw [Nat.shiftLeft_eq]
    rw [Nat.shiftRight_eq_div_pow]
    calc (v &&& DPL_RING_3) / 2 ^ 45 ≤ DPL_RING_3 / 2 ^ 45 :=
          Nat.div_le_div_right h1
      _ = 3 := by rw [h2, Nat.mul_div_cancel 3 (by positivity)]
  cases e with
  | UserSegment v => exact key v
  | SystemSegment v _ => exact key v

theorem selector_new_index (i d : Nat) (hi : i ≤ 7) (hd : d ≤ 3) :
    (SegmentSelector.new i d).index = i := by
  interval_cases i <;> interval_cases d <;> decide

/-- C9: `add_entry` returns a selector whose index equals the slot the
descriptor's first word was written to, with slot 0 reserved for the null
descriptor; a `UserSegment` consumes one slot and a `SystemSegment` two
contiguous slots, so after adding kernel-code and kernel-data the TSS system
descriptor occupies two slots and its selector index equals 3. -/
theorem claim_C9 (g g2 : GlobalDescriptorTable) (e : SegmentDescriptor)
    (sel : SegmentSelector) (tssPtr : Nat)
    (hlen : g.table.length = 8)
    (hadd : g.add_entry e = some (g2, sel)) :
    sel.index = g.len ∧
    (∀ v, e = SegmentDescriptor.UserSegment v → g2.len = g.len + 1) ∧
    (∀ lo hi, e = SegmentDescriptor.SystemSegment lo hi →
      g2.len = g.len + 2) ∧
    GlobalDescriptorTable.new.table = List.replicate 8 0 ∧
    GlobalDescriptorTable.new.len = 1 ∧
    (∃ gA sA gB sB gC sC,
      GlobalDescriptorTable.new.add_entry
          SegmentDescriptor.kernel_code_segment = some (gA, sA) ∧
      gA.add_entry SegmentDescriptor.kernel_data_segment = some (gB, sB) ∧
      gB.add_entry (SegmentDescriptor.tss_segment tssPtr) = some (gC, sC) ∧
      sA.index = 1 ∧ sB.index = 2 ∧ sC.index = 3 ∧ gC.len = gB.len + 2) := by
  have hmain : sel.index = g.len ∧
      (∀ v, e = SegmentDescriptor.UserSegment v → g2.len = g.len + 1) ∧
      (∀ lo hi, e = SegmentDescriptor.SystemSegment lo hi →
        g2.len = g.len + 2) := by
    cases e with
    | UserSegment v =>
      unfold GlobalDescriptorTable.add_entry at hadd
      dsimp only at hadd
      by_cases hg : g.len > g.table.length - 1
      · rw [if_pos hg] at hadd
        exact Option.noConfusion hadd
      · rw [if_neg hg] at hadd
        simp only [GlobalDescriptorTable.push] at hadd
        have hp := Option.some_inj.mp hadd
        have hg2 : g2 = ⟨g.table.set g.len v, g.len + 1⟩ :=
          (congrArg Prod.fst hp).symm
        have hsel : sel = SegmentSelector.new g.len
            (SegmentDescriptor.UserSegment v).dpl :=
          (congrArg Prod.snd hp).symm
        refine ⟨?_, fun _ _ => by rw [hg2], fun lo hi hcon =>
          SegmentDescriptor.noConfusion hcon⟩
        rw [hsel]
        exact selector_new_index g.len _ (by omega)
          (dpl_le_three (SegmentDescriptor.UserSegment v))
    | SystemSegment lo hi =>
      unfold GlobalDescriptorTable.add_entry at hadd
      dsimp only at hadd
      by_cases hg : g.len > g.table.length - 2
      · rw [if_pos hg] at hadd
        exact Option.noConfusion hadd
      · rw [if_neg hg] at hadd
        simp only [GlobalDescriptorTable.push] at hadd
        have hp := Option.some_inj.mp hadd
        have hg2 : g2 = ⟨(g.table.set g.len lo).set (g.len + 1) hi,
            g.len + 2⟩ := (congrArg Prod.fst hp).symm
        have hsel : sel = SegmentSelector.new g.len
            (SegmentDescriptor.SystemSegment lo hi).dpl :=
          (congrArg Prod.snd hp).symm
        refine ⟨?_, fun v hcon => SegmentDescriptor.noConfusion hcon,
          fun _ _ _ => by rw [hg2]⟩
        rw [hsel]
        exact selector_new_index g.len _ (by omega)
          (dpl_le_three (SegmentDescriptor.SystemSegment lo hi))
  refine ⟨hmain.1, hmain.2.1, hmain.2.2, rfl, rfl, ?_⟩
  refine ⟨_, _, _, _, _, _, rfl, rfl, rfl, by decide, by decide, ?_, rfl⟩
  have hd := dpl_le_three (SegmentDescriptor.tss_segment tssPtr)
  exact selector_new_index 3 _ (by omega) hd

theorem claim_C9_witness :
    (GlobalDescriptorTable.new.table.length = 8 ∧
      GlobalDescriptorTable.new.add_entry
          SegmentDescriptor.kernel_code_segment =
        some (⟨[0, 49428545226735615, 0, 0, 0, 0, 0, 0], 2⟩, ⟨8⟩)) ∧
    ((⟨8⟩ : SegmentSelector).index = GlobalDescriptorTable.new.len ∧
      (∃ gA sA gB sB gC sC,
        GlobalDescriptorTable.new.add_entry
            SegmentDescriptor.kernel_code_segment = some (gA, sA) ∧
        gA.add_entry SegmentDescriptor.kernel_data_segment = some (gB, sB) ∧
        gB.add_entry (SegmentDescriptor.tss_segment 0x1000) = some (gC, sC) ∧
        sA.index = 1 ∧ sB.index = 2 ∧ sC.index = 3 ∧ gC.len = gB.len + 2)) := by
  have hadd : GlobalDescriptorTable.new.add_entry
      SegmentDescriptor.kernel_code_segment =
      some (⟨[0, 49428545226735615, 0, 0, 0, 0, 0, 0], 2⟩, ⟨8⟩) := by decide
  have hc := claim_C9 GlobalDescriptorTable.new
    ⟨[0, 49428545226735615, 0, 0, 0, 0, 0, 0], 2⟩
    SegmentDescriptor.kernel_code_segment ⟨8⟩ 0x1000 (by decide) hadd
  exact ⟨⟨by decide, hadd⟩, hc.1, hc.2.2.2.2.2⟩

/-! ### Claim C10: `Spinlock::acquire` (src/kernel/spinlock.rs, lines 19-54)

The lock state is `locked` (a `u64` toggled by `lock xchg`) and the owner
field `cpu`.  On the single configured core (`CPU_COUNT = 1`, so `cpu::id()`
is the constant `myId` and nobody else writes `locked`), one `xchg` decides
the spin loop: if it returns 0 the lock is acquired, otherwise `locked`
stays 1 forever and the loop spins — `AcquireOutcome.spins`. -/

structure Spinlock where
  locked : Nat
  cpu : Option Nat
deriving Repr, DecidableEq

/-- `Spinlock::holding()` — the body of the `without_interrupts` closure
(the interrupt masking around the read does not change the value read). -/
def Spinlock.holding (lk : Spinlock) (myId : Nat) : Bool :=
  decide (lk.locked ≠ 0) && decide (lk.cpu = some myId)

inductive AcquireOutcome where
  | panicked
  | spins
  | acquired (lk : Spinlock) (c : CpuIntState)
deriving Repr, DecidableEq

/-- `Spinlock::acquire()` on the single configured core:
`push_interrupt_off()`, then `assert!(!self.holding())` (whose failure is
`AcquireOutcome.panicked`), then the `xchg` spin loop, then
`self.cpu = Some(cpu::id())`. -/
def Spinlock.acquire (lk : Spinlock) (myId : Nat) (c : CpuIntState) :
    AcquireOutcome :=
  let c2 := pushInterruptOff c
  if lk.holding myId then AcquireOutcome.panicked
  else if lk.locked ≠ 0 then AcquireOutcome.spins
  else AcquireOutcome.acquired { locked := 1, cpu := some myId } c2

/-- C10: calling `Spinlock::acquire` when the lock is already held by the
current CPU fails the assertion (panics) before entering the spin loop —
single-core self-reacquisition is a fatal error, not an unbounded spin. -/
theorem claim_C10 (lk : Spinlock) (myId : Nat) (c : CpuIntState)
    (h : lk.holding myId = true) :
    lk.acquire myId c = AcquireOutcome.panicked := by
  unfold Spinlock.acquire
  dsimp only
  rw [if_pos h]

theorem claim_C10_witness :
    (Spinlock.mk 1 (some 0)).holding 0 = true ∧
    (Spinlock.mk 1 (some 0)).acquire 0 ⟨0, false, false⟩ =
      AcquireOutcome.panicked :=
  ⟨by decide, claim_C10 (Spinlock.mk 1 (some 0)) 0 ⟨0, false, false⟩
    (by decide)⟩
